import Mathlib

/-!
# tea_str.hpp: a compile-time string obfuscator built on TEA

Shallow embedding of `src/tea_str.hpp`.

* `uint32_t` values are natural numbers below `2 ^ 32`; every operation that can
  leave that range in C++ is followed by an explicit `% 2 ^ 32`.
* `uint64_t` blocks are natural numbers below `2 ^ 64`.
* `std::array` values and the `char` buffers are lists; a `char` is represented by
  its 8-bit pattern `0 .. 255`.
* `for (size_t i = 0; i < n; ++i)` loops are folds over `List.range n`; the two
  64-round cipher loops are a structural recursion on the number of rounds left.
-/

set_option maxRecDepth 100000

namespace tea

/-! ## Constants -/

/-- Modulus of `uint32_t` arithmetic. -/
def U32 : Nat := 2 ^ 32

/-- Source: `constexpr uint32_t DELTA = 0x9e3779b9u;` -/
def DELTA : Nat := 0x9e3779b9

/-- Source: `constexpr size_t ROUNDS = 64;` -/
def ROUNDS : Nat := 64

/-! ## Key derivation -/

/-- A key: `std::array<uint32_t, 4>`. -/
structure Key where
  k0 : Nat
  k1 : Nat
  k2 : Nat
  k3 : Nat
deriving DecidableEq, Repr

/-- Source: `key_generator::generate(Args... seed)`.

`std::array<uint32_t, 4> key = { static_cast<uint32_t>(seed)... };` converts each
argument to `uint32_t` and value-initialises the elements that have no initialiser.
More than four initialisers do not compile, so the pack has at most four elements.
The result is `{ key[2], key[0], key[3], key[1] }`. -/
def generate (seed : List Nat) (_h : seed.length ≤ 4) : Key :=
  let key : Nat → Nat := fun i => (seed.getD i 0) % U32
  ⟨key 2, key 0, key 3, key 1⟩

/-! ## Block cipher -/

/-- The TEA mixing term `((v << 4) + ka) ^ (v + sum) ^ ((v >> 5) + kb)` on `uint32_t`. -/
def mix (v sum ka kb : Nat) : Nat :=
  (((v <<< 4) % U32 + ka) % U32) ^^^ ((v + sum) % U32) ^^^ (((v >>> 5) + kb) % U32)

/-- Loop state of both cipher loops: `v0`, `v1`, `sum`. -/
structure Regs where
  v0 : Nat
  v1 : Nat
  sum : Nat
deriving DecidableEq, Repr

/-- Registers that hold `uint32_t` values. -/
def Regs.InRange (r : Regs) : Prop := r.v0 < U32 ∧ r.v1 < U32 ∧ r.sum < U32

/-- One iteration of the loop in `cipher::encrypt_block`. -/
def encRound (key : Key) (r : Regs) : Regs :=
  let sum := (r.sum + DELTA) % U32
  let v0 := (r.v0 + mix r.v1 sum key.k0 key.k1) % U32
  let v1 := (r.v1 + mix v0 sum key.k2 key.k3) % U32
  ⟨v0, v1, sum⟩

/-- One iteration of the loop in `cipher::decrypt_block`; `a -= b` on `uint32_t` is
`(a + 2^32 - b) % 2^32` for `b < 2^32`. -/
def decRound (key : Key) (r : Regs) : Regs :=
  let v1 := (r.v1 + U32 - mix r.v0 r.sum key.k2 key.k3) % U32
  let v0 := (r.v0 + U32 - mix v1 r.sum key.k0 key.k1) % U32
  let sum := (r.sum + U32 - DELTA) % U32
  ⟨v0, v1, sum⟩

/-- Run `n` iterations of the encryption loop. -/
def encLoop (key : Key) : Nat → Regs → Regs
  | 0, r => r
  | n + 1, r => encLoop key n (encRound key r)

/-- Run `n` iterations of the decryption loop. -/
def decLoop (key : Key) : Nat → Regs → Regs
  | 0, r => r
  | n + 1, r => decLoop key n (decRound key r)

/-- Source: `(static_cast<uint64_t>(v0) << 32) | v1`. -/
def pack64 (v0 v1 : Nat) : Nat := ((v0 <<< 32) % 2 ^ 64) ||| v1

/-- Source: `static_cast<uint32_t>(block >> 32)`. -/
def high32 (block : Nat) : Nat := (block >>> 32) % U32

/-- Source: `static_cast<uint32_t>(block & 0xFFFFFFFFu)`. -/
def low32 (block : Nat) : Nat := (block &&& 0xFFFFFFFF) % U32

/-- Source: `cipher::encrypt_block`. -/
def encrypt_block (v0 v1 : Nat) (key : Key) : Nat :=
  let r := encLoop key ROUNDS ⟨v0, v1, 0⟩
  pack64 r.v0 r.v1

/-- Source: `cipher::decrypt_block`. -/
def decrypt_block (v0 v1 : Nat) (key : Key) : Nat :=
  let r := decLoop key ROUNDS ⟨v0, v1, (DELTA * ROUNDS) % U32⟩
  pack64 r.v0 r.v1

/-! ## Encrypted container

`encrypted_string<N, S1, S2, S3, S4>` holds `std::array<uint64_t, (N + 7) / 8> encrypted`
and the static `key`. The text `str` is a `const char[N]`; `N ≥ 1` since C++ has no
arrays of length zero. `size_t` arithmetic on `N`, `i`, `idx`, `offset` and `pos` is
modelled on `Nat`: these values are bounded by the array length and cannot wrap. -/

/-- Source: the array bound `(N + 7) / 8` of `encrypted`, the value of `encrypted.size()`. -/
def blockCount (N : Nat) : Nat := (N + 7) / 8

/-- Source: `static constexpr auto key = key_generator::generate(S1, S2, S3, S4);` -/
def encrypted_string.key (S1 S2 S3 S4 : Nat) : Key :=
  generate [S1, S2, S3, S4] (Nat.le_refl 4)

/-- Source: `size_t idx = (i * 5) % encrypted.size();` with `size = encrypted.size()`. -/
def scramble (size i : Nat) : Nat := (i * 5) % size

/-- Source: `static_cast<uint32_t>(str[pos])` for a `char` with bit pattern `c`.

Whether plain `char` is signed is implementation-defined, so it is the parameter
`signedChar`. A signed `char` with bit pattern `c ≥ 128` has the value `c - 256`, which
converts to `2^32 + c - 256`; every other `char` converts to `c`. -/
def charToU32 (signedChar : Bool) (c : Nat) : Nat :=
  if signedChar && decide (128 ≤ c) then (c + 0xFFFFFF00) % U32 else c % U32

/-- Source: each of the two packing loops of the constructor, started at `base`
(`offset` for `part1`, `offset + 4` for `part2`):
`part |= (pos < N - 1 ? static_cast<uint32_t>(str[pos]) : 0u) << (j * 8)`
for `j = 0 .. 3` and `pos = base + j`, from `part = 0`. -/
def packWord (signedChar : Bool) (N : Nat) (str : List Nat) (base : Nat) : Nat :=
  (List.range 4).foldl
    (fun part j =>
      let pos := base + j
      part ||| (((if pos < N - 1 then charToU32 signedChar (str.getD pos 0) else 0)
        <<< (j * 8)) % U32))
    0

/-- The value `cipher::encrypt_block(part1, part2, key)` that the constructor computes when
its storage index is `idx`: both words are packed from `offset = idx * 8`. -/
def encrypted_string.chunkBlock (signedChar : Bool) (N : Nat) (key : Key) (str : List Nat)
    (idx : Nat) : Nat :=
  encrypt_block (packWord signedChar N str (idx * 8)) (packWord signedChar N str (idx * 8 + 4))
    key

/-- Body of the constructor's loop over `i`. -/
def encrypted_string.ctorStep (signedChar : Bool) (N : Nat) (key : Key) (str : List Nat)
    (encrypted : List Nat) (i : Nat) : List Nat :=
  let idx := scramble (blockCount N) i
  let offset := idx * 8
  let part1 := packWord signedChar N str offset
  let part2 := packWord signedChar N str (offset + 4)
  encrypted.set idx (encrypt_block part1 part2 key)

/-- Source: the constructor `encrypted_string(const char(&str)[N]) : encrypted{}`.
Returns the member `encrypted`. -/
def encrypted_string.ctor (signedChar : Bool) (N : Nat) (key : Key) (str : List Nat) :
    List Nat :=
  (List.range (blockCount N)).foldl (encrypted_string.ctorStep signedChar N key str)
    (List.replicate (blockCount N) 0)

/-- Source: each of the two write loops of `decrypt`, started at `base`
(`offset` with `v0`, `offset + 4` with `v1`):
`if (base + j < N - 1) decrypted[base + j] = static_cast<char>((v >> (j * 8)) & 0xFFu)`
for `j = 0 .. 3`. -/
def writeWord (N : Nat) (v base : Nat) (decrypted : List Nat) : List Nat :=
  (List.range 4).foldl
    (fun d j => if base + j < N - 1 then d.set (base + j) ((v >>> (j * 8)) &&& 0xFF) else d)
    decrypted

/-- Body of the loop over `i` in `decrypt`. -/
def encrypted_string.decStep (N : Nat) (key : Key) (encrypted : List Nat)
    (decrypted : List Nat) (i : Nat) : List Nat :=
  let idx := scramble (blockCount N) i
  let block := encrypted.getD idx 0
  let v0 := high32 block
  let v1 := low32 block
  let plain := decrypt_block v0 v1 key
  let v0 := high32 plain
  let v1 := low32 plain
  let offset := idx * 8
  writeWord N v1 (offset + 4) (writeWord N v0 offset decrypted)

/-- Source: `encrypted_string::decrypt`. The `static thread_local char decrypted[N]{}`
buffer outlives the call, so its contents before the call are the argument `decrypted`
and its contents after the call are the result. -/
def encrypted_string.decrypt (N : Nat) (key : Key) (encrypted : List Nat)
    (decrypted : List Nat) : List Nat :=
  ((List.range (blockCount N)).foldl (encrypted_string.decStep N key encrypted) decrypted).set
    (N - 1) 0

/-- The byte that `decrypt` stores at position `pos` when it visits the block `pos / 8`:
byte `pos % 8` of the decrypted block, the first four taken from `v0` and the last four
from `v1`. -/
def encrypted_string.plainByte (key : Key) (encrypted : List Nat) (pos : Nat) : Nat :=
  let block := encrypted.getD (pos / 8) 0
  let plain := decrypt_block (high32 block) (low32 block) key
  if pos % 8 < 4 then (high32 plain >>> (pos % 8 * 8)) &&& 0xFF
  else (low32 plain >>> ((pos % 8 - 4) * 8)) &&& 0xFF

/-- The buffer `decrypted[N]{}` before the first call: `N` zero bytes. -/
def freshBuffer (N : Nat) : List Nat := List.replicate N 0

/-- The `N` chars of a string literal with `N - 1` content chars: bit patterns below 256
and a terminator at position `N - 1`. -/
def IsLiteral (N : Nat) (str : List Nat) : Prop :=
  str.length = N ∧ (∀ c ∈ str, c < 256) ∧ str.getD (N - 1) 1 = 0

instance (N : Nat) (str : List Nat) : Decidable (IsLiteral N str) := by
  unfold IsLiteral
  infer_instance

/-- The byte of the text at position `p` as the constructor sees it: the char at `p` when
`p < N - 1`, zero otherwise. -/
def contentByte (N : Nat) (str : List Nat) (p : Nat) : Nat :=
  if p < N - 1 then str.getD p 0 else 0

/-- The literal made of the given content chars followed by the terminator. -/
def literal (content : List Nat) : List Nat := content ++ [0]

/-- The block count as the specification words it: `ceil((N - 1) / 8)`, the least number of
8-byte blocks that cover the `N - 1` content chars. -/
def specBlockCount (N : Nat) : Nat := (N - 1 + 7) / 8

/-! ## Sample inputs -/

/-- The literal `"HELLO"`: `N = 6`. -/
def helloText : List Nat := literal [72, 69, 76, 76, 79]

/-- The literal `"ABCDEFGHIJKLMNOP"`: 16 content chars, `N = 17`, three blocks. -/
def text17 : List Nat := literal ((List.range 16).map (fun i => 65 + i))

/-- The literal `"ABCDEFGHIJKLMNOPQRSTUVWXYZabcdef"`: 32 content chars, `N = 33`, five blocks. -/
def text33 : List Nat :=
  literal ((List.range 26).map (fun i => 65 + i) ++ (List.range 6).map (fun i => 97 + i))

/-- The literal `"0123456789ABCDEFGHIJKLMNOPQRSTUVWXYZ"`: 36 content chars, `N = 37`, five
blocks. -/
def text37 : List Nat :=
  literal ((List.range 10).map (fun i => 48 + i) ++ (List.range 26).map (fun i => 65 + i))

/-! ## Checked execution

The same loops with every source of a runtime failure made explicit: an array index out of
range, a zero modulus or a shift amount of 32 or more ends the run with `none`. -/

/-- Checked `(i * 5) % encrypted.size()`: the modulus must not be zero. -/
def scrambleChk (size i : Nat) : Option Nat :=
  if size = 0 then none else some ((i * 5) % size)

/-- Checked `packWord`: `str[pos]` is read only when `pos < N - 1` holds and must then be
in range; the shift amount `j * 8` must be below 32. -/
def packWordChk (signedChar : Bool) (N : Nat) (str : List Nat) (base : Nat) : Option Nat :=
  (List.range 4).foldlM
    (fun part j =>
      let pos := base + j
      if j * 8 < 32 then
        (if pos < N - 1 then (str[pos]?).map (charToU32 signedChar) else some 0).map
          (fun c => part ||| ((c <<< (j * 8)) % U32))
      else none)
    0

/-- Checked body of the constructor's loop: `encrypted[idx]` must be in range. -/
def encrypted_string.ctorStepChk (signedChar : Bool) (N : Nat) (key : Key) (str : List Nat)
    (encrypted : List Nat) (i : Nat) : Option (List Nat) :=
  (scrambleChk (blockCount N) i).bind fun idx =>
  (packWordChk signedChar N str (idx * 8)).bind fun part1 =>
  (packWordChk signedChar N str (idx * 8 + 4)).bind fun part2 =>
  if idx < encrypted.length then some (encrypted.set idx (encrypt_block part1 part2 key))
  else none

/-- Checked constructor. -/
def encrypted_string.ctorChk (signedChar : Bool) (N : Nat) (key : Key) (str : List Nat) :
    Option (List Nat) :=
  (List.range (blockCount N)).foldlM (encrypted_string.ctorStepChk signedChar N key str)
    (List.replicate (blockCount N) 0)

/-- Checked `writeWord`: a store to `decrypted[base + j]` must be in range and its shift
amount below 32. -/
def writeWordChk (N : Nat) (v base : Nat) (decrypted : List Nat) : Option (List Nat) :=
  (List.range 4).foldlM
    (fun d j =>
      if base + j < N - 1 then
        (if j * 8 < 32 ∧ base + j < d.length then
          some (d.set (base + j) ((v >>> (j * 8)) &&& 0xFF))
        else none)
      else some d)
    decrypted

/-- Checked body of the loop in `decrypt`: `encrypted[idx]` must be in range. -/
def encrypted_string.decStepChk (N : Nat) (key : Key) (encrypted : List Nat)
    (decrypted : List Nat) (i : Nat) : Option (List Nat) :=
  (scrambleChk (blockCount N) i).bind fun idx =>
  (encrypted[idx]?).bind fun block =>
  let plain := decrypt_block (high32 block) (low32 block) key
  (writeWordChk N (high32 plain) (idx * 8) decrypted).bind fun d1 =>
  writeWordChk N (low32 plain) (idx * 8 + 4) d1

/-- Checked `decrypt`: the final store to `decrypted[N - 1]` must be in range. -/
def encrypted_string.decryptChk (N : Nat) (key : Key) (encrypted : List Nat)
    (decrypted : List Nat) : Option (List Nat) :=
  ((List.range (blockCount N)).foldlM (encrypted_string.decStepChk N key encrypted)
    decrypted).bind fun d1 =>
  if N - 1 < d1.length then some (d1.set (N - 1) 0) else none

/-! ## Notions used in the statements -/

/-- The index map `i ↦ (i * 5) % size` is a bijection of `{0, ..., size - 1}`: it is
injective there and reaches every index. -/
def ScrambleBijective (size : Nat) : Prop :=
  (∀ i, i < size → ∀ j, j < size → scramble size i = scramble size j → i = j) ∧
  (∀ k, k < size → ∃ i, i < size ∧ scramble size i = k)

/-- The in-order construction: for `k = 0, 1, ..., blockCount - 1` encrypt chunk `k` into
slot `k`, starting from the zeroed array. -/
def encrypted_string.naiveCtor (signedChar : Bool) (N : Nat) (key : Key) (str : List Nat) :
    List Nat :=
  (List.range (blockCount N)).foldl
    (fun e k => e.set k (encrypted_string.chunkBlock signedChar N key str k))
    (List.replicate (blockCount N) 0)

/-- Flip the most significant bit of a `uint32_t`: `x ^ 0x80000000`. -/
def flipMsb (x : Nat) : Nat := x ^^^ 0x80000000

/-- The little-endian value of the four content bytes from `base`:
the sum over `j = 0 .. 3` of `b(base + j) * 2 ^ (8 * j)`. -/
def leWord (N : Nat) (str : List Nat) (base : Nat) : Nat :=
  ((List.range 4).map (fun j => contentByte N str (base + j) * 2 ^ (8 * j))).sum

/-- The block of chunk `k` as the text determines it: `encrypt_block` applied to the
little-endian values of bytes `[8k, 8k + 4)` and `[8k + 4, 8k + 8)` of the text, zero
from position `N - 1` on. -/
def specChunkBlock (N : Nat) (key : Key) (str : List Nat) (k : Nat) : Nat :=
  encrypt_block (leWord N str (k * 8)) (leWord N str (k * 8 + 4)) key

/-- The in-order construction on the bytes of the text: slot `k` holds `specChunkBlock` of
chunk `k` for `k = 0, 1, ..., blockCount - 1`. -/
def specLinearCtor (N : Nat) (key : Key) (str : List Nat) : List Nat :=
  (List.range (blockCount N)).map (specChunkBlock N key str)

/-! ## `decrypt` with a log of its stores

The same loops as `decrypt`, on a pair: the buffer, and the list of the positions of
`decrypted` that have been stored to so far, in order. -/

/-- A write loop of `decrypt` that also logs each position it stores to. -/
def writeWordLog (N : Nat) (v base : Nat) (s : List Nat × List Nat) : List Nat × List Nat :=
  (List.range 4).foldl
    (fun s j =>
      if base + j < N - 1 then
        (s.1.set (base + j) ((v >>> (j * 8)) &&& 0xFF), s.2 ++ [base + j])
      else s)
    s

/-- Body of the loop over `i` in `decrypt`, with the log. -/
def encrypted_string.decStepLog (N : Nat) (key : Key) (encrypted : List Nat)
    (s : List Nat × List Nat) (i : Nat) : List Nat × List Nat :=
  let idx := scramble (blockCount N) i
  let block := encrypted.getD idx 0
  let v0 := high32 block
  let v1 := low32 block
  let plain := decrypt_block v0 v1 key
  let v0 := high32 plain
  let v1 := low32 plain
  let offset := idx * 8
  writeWordLog N v1 (offset + 4) (writeWordLog N v0 offset s)

/-- Source: `encrypted_string::decrypt`, with the log: the final store to
`decrypted[N - 1]` is logged last. -/
def encrypted_string.decryptLog (N : Nat) (key : Key) (encrypted : List Nat)
    (decrypted : List Nat) : List Nat × List Nat :=
  let s := (List.range (blockCount N)).foldl (encrypted_string.decStepLog N key encrypted)
    (decrypted, [])
  (s.1.set (N - 1) 0, s.2 ++ [N - 1])

/-- A state of the logged run started on `d`: every position that is not in the log still
holds what `d` held. -/
def Untouched (d : List Nat) (s : List Nat × List Nat) : Prop :=
  ∀ p, p ∉ s.2 → s.1.getD p 0 = d.getD p 0

/-- The literal `"\x80A"`: chars `0x80`, `0x41` and the terminator, `N = 3`, one block. -/
def text3 : List Nat := literal [128, 65]

/-! ## Facts about `uint32_t` arithmetic -/

theorem mix_lt (v sum ka kb : Nat) : mix v sum ka kb < U32 := by
  unfold mix U32
  exact Nat.xor_lt_two_pow
    (Nat.xor_lt_two_pow (Nat.mod_lt _ (by norm_num)) (Nat.mod_lt _ (by norm_num)))
    (Nat.mod_lt _ (by norm_num))

/-- Adding and then subtracting the same `uint32_t` value restores the operand. -/
theorem add_sub_wrap (a f : Nat) (ha : a < U32) (hf : f < U32) :
    ((a + f) % U32 + U32 - f) % U32 = a := by
  unfold U32 at *
  omega

/-- Subtracting and then adding the same `uint32_t` value restores the operand. -/
theorem sub_add_wrap (a f : Nat) (ha : a < U32) (hf : f < U32) :
    ((a + U32 - f) % U32 + f) % U32 = a := by
  unfold U32 at *
  omega

theorem pack64_eq (v0 v1 : Nat) (h0 : v0 < U32) (h1 : v1 < U32) :
    pack64 v0 v1 = v0 * 2 ^ 32 + v1 := by
  unfold U32 at *
  unfold pack64
  have h : (v0 <<< 32) % 2 ^ 64 = 2 ^ 32 * v0 := by
    rw [Nat.shiftLeft_eq]
    omega
  rw [h, ← Nat.mul_add_lt_is_or h1]
  omega

theorem high32_pack64 (v0 v1 : Nat) (h0 : v0 < U32) (h1 : v1 < U32) :
    high32 (pack64 v0 v1) = v0 := by
  rw [pack64_eq v0 v1 h0 h1]
  unfold high32
  rw [Nat.shiftRight_eq_div_pow]
  unfold U32 at *
  omega

theorem low32_pack64 (v0 v1 : Nat) (h0 : v0 < U32) (h1 : v1 < U32) :
    low32 (pack64 v0 v1) = v1 := by
  rw [pack64_eq v0 v1 h0 h1]
  unfold low32
  have h := Nat.and_pow_two_sub_one_eq_mod (v0 * 2 ^ 32 + v1) 32
  norm_num at h ⊢
  rw [h]
  unfold U32 at *
  omega

/-! ## The cipher loops invert each other -/

theorem encRound_inRange (key : Key) (r : Regs) : (encRound key r).InRange := by
  unfold encRound Regs.InRange U32
  exact ⟨Nat.mod_lt _ (by norm_num), Nat.mod_lt _ (by norm_num), Nat.mod_lt _ (by norm_num)⟩

theorem decRound_inRange (key : Key) (r : Regs) : (decRound key r).InRange := by
  unfold decRound Regs.InRange U32
  exact ⟨Nat.mod_lt _ (by norm_num), Nat.mod_lt _ (by norm_num), Nat.mod_lt _ (by norm_num)⟩

theorem decRound_encRound (key : Key) (r : Regs) (h : r.InRange) :
    decRound key (encRound key r) = r := by
  obtain ⟨v0, v1, sum⟩ := r
  obtain ⟨h0, h1, hs⟩ := h
  simp only at h0 h1 hs
  have hD : DELTA < U32 := by unfold DELTA U32; norm_num
  simp only [decRound, encRound]
  rw [add_sub_wrap v1 _ h1 (mix_lt _ _ _ _), add_sub_wrap v0 _ h0 (mix_lt _ _ _ _),
    add_sub_wrap sum _ hs hD]

theorem encRound_decRound (key : Key) (r : Regs) (h : r.InRange) :
    encRound key (decRound key r) = r := by
  obtain ⟨v0, v1, sum⟩ := r
  obtain ⟨h0, h1, hs⟩ := h
  simp only at h0 h1 hs
  have hD : DELTA < U32 := by unfold DELTA U32; norm_num
  simp only [decRound, encRound]
  rw [sub_add_wrap sum _ hs hD, sub_add_wrap v0 _ h0 (mix_lt _ _ _ _),
    sub_add_wrap v1 _ h1 (mix_lt _ _ _ _)]

theorem encLoop_succ_last (key : Key) (n : Nat) (r : Regs) :
    encLoop key (n + 1) r = encRound key (encLoop key n r) := by
  induction n generalizing r with
  | zero => rfl
  | succ n ih =>
    show encLoop key (n + 1) (encRound key r) = _
    rw [ih]
    rfl

theorem decLoop_succ_last (key : Key) (n : Nat) (r : Regs) :
    decLoop key (n + 1) r = decRound key (decLoop key n r) := by
  induction n generalizing r with
  | zero => rfl
  | succ n ih =>
    show decLoop key (n + 1) (decRound key r) = _
    rw [ih]
    rfl

theorem encLoop_inRange (key : Key) (n : Nat) (r : Regs) (h : r.InRange) :
    (encLoop key n r).InRange := by
  cases n with
  | zero => exact h
  | succ n =>
    rw [encLoop_succ_last]
    exact encRound_inRange key _

theorem decLoop_inRange (key : Key) (n : Nat) (r : Regs) (h : r.InRange) :
    (decLoop key n r).InRange := by
  cases n with
  | zero => exact h
  | succ n =>
    rw [decLoop_succ_last]
    exact decRound_inRange key _

theorem encLoop_sum (key : Key) (n : Nat) (r : Regs) (h : r.sum < U32) :
    (encLoop key n r).sum = (r.sum + DELTA * n) % U32 := by
  induction n with
  | zero => simpa using (Nat.mod_eq_of_lt h).symm
  | succ n ih =>
    rw [encLoop_succ_last]
    show ((encLoop key n r).sum + DELTA) % U32 = _
    rw [ih, Nat.mod_add_mod, Nat.mul_succ, Nat.add_assoc]

theorem decLoop_sum (key : Key) (n : Nat) (r : Regs) (h : r.sum < U32) :
    ((decLoop key n r).sum + DELTA * n) % U32 = r.sum := by
  induction n with
  | zero => simpa using Nat.mod_eq_of_lt h
  | succ n ih =>
    rw [decLoop_succ_last]
    show (((decLoop key n r).sum + U32 - DELTA) % U32 + DELTA * (n + 1)) % U32 = _
    rw [← ih]
    unfold U32 DELTA
    omega

theorem decLoop_encLoop (key : Key) (n : Nat) (r : Regs) (h : r.InRange) :
    decLoop key n (encLoop key n r) = r := by
  induction n with
  | zero => rfl
  | succ n ih =>
    rw [encLoop_succ_last]
    show decLoop key n (decRound key (encRound key (encLoop key n r))) = r
    rw [decRound_encRound key _ (encLoop_inRange key n r h), ih]

theorem encLoop_decLoop (key : Key) (n : Nat) (r : Regs) (h : r.InRange) :
    encLoop key n (decLoop key n r) = r := by
  induction n with
  | zero => rfl
  | succ n ih =>
    rw [decLoop_succ_last]
    show encLoop key n (encRound key (decRound key (decLoop key n r))) = r
    rw [encRound_decRound key _ (decLoop_inRange key n r h), ih]

/-- Decrypting the two halves of an encrypted block gives back the packed plain words. -/
theorem decrypt_encrypt_block (key : Key) (v0 v1 : Nat) (h0 : v0 < U32) (h1 : v1 < U32) :
    decrypt_block (high32 (encrypt_block v0 v1 key)) (low32 (encrypt_block v0 v1 key)) key
      = pack64 v0 v1 := by
  have hr : Regs.InRange ⟨v0, v1, 0⟩ := ⟨h0, h1, by unfold U32; norm_num⟩
  have hb := encLoop_inRange key ROUNDS _ hr
  have hs := encLoop_sum key ROUNDS ⟨v0, v1, 0⟩ hr.2.2
  simp only [Nat.zero_add] at hs
  unfold decrypt_block encrypt_block
  simp only
  rw [high32_pack64 _ _ hb.1 hb.2.1, low32_pack64 _ _ hb.1 hb.2.1, ← hs]
  show pack64 (decLoop key ROUNDS (encLoop key ROUNDS ⟨v0, v1, 0⟩)).v0
    (decLoop key ROUNDS (encLoop key ROUNDS ⟨v0, v1, 0⟩)).v1 = _
  rw [decLoop_encLoop key ROUNDS _ hr]

/-! ## Loops that overwrite list positions -/

theorem getD_set_eq (l : List Nat) (i pos v : Nat) (h : pos < l.length) :
    (l.set i v).getD pos 0 = if i = pos then v else l.getD pos 0 := by
  simp only [List.getD_eq_getElem?_getD, List.getElem?_set]
  split_ifs with h1 h2
  · rfl
  · omega
  · rfl

/-- A loop whose every step either leaves position `pos` alone or stores `g pos` there
leaves `g pos` at `pos` as soon as one step stores, and the old value otherwise. -/
theorem foldl_override {ι : Type} (st : List Nat → ι → List Nat) (W : ι → Nat → Prop)
    (g : Nat → Nat) (is : List ι)
    (hlen : ∀ d i, (st d i).length = d.length)
    (hw : ∀ d i pos, i ∈ is → pos < d.length → W i pos → (st d i).getD pos 0 = g pos)
    (hn : ∀ d i pos, i ∈ is → pos < d.length → ¬ W i pos → (st d i).getD pos 0 = d.getD pos 0)
    (d : List Nat) (pos : Nat) (hpos : pos < d.length) :
    ((∃ i ∈ is, W i pos) → (is.foldl st d).getD pos 0 = g pos) ∧
    ((¬ ∃ i ∈ is, W i pos) → (is.foldl st d).getD pos 0 = d.getD pos 0) := by
  induction is generalizing d with
  | nil => simp
  | cons a is ih =>
    have hpos2 : pos < (st d a).length := by rw [hlen]; exact hpos
    have ih2 := ih (fun d i pos hi => hw d i pos (List.mem_cons_of_mem a hi))
      (fun d i pos hi => hn d i pos (List.mem_cons_of_mem a hi)) (st d a) hpos2
    rw [List.foldl_cons]
    constructor
    · rintro ⟨i, hi, hWi⟩
      by_cases hex : ∃ i ∈ is, W i pos
      · exact ih2.1 hex
      · rw [ih2.2 hex]
        rcases List.mem_cons.mp hi with rfl | hi2
        · exact hw d i pos (List.mem_cons_self i is) hpos hWi
        · exact absurd ⟨i, hi2, hWi⟩ hex
    · intro hno
      have hex : ¬ ∃ i ∈ is, W i pos := fun ⟨i, hi, hWi⟩ =>
        hno ⟨i, List.mem_cons_of_mem a hi, hWi⟩
      rw [ih2.2 hex]
      exact hn d a pos (List.mem_cons_self a is) hpos
        (fun hWa => hno ⟨a, List.mem_cons_self a is, hWa⟩)

theorem foldl_length {ι : Type} (st : List Nat → ι → List Nat)
    (hlen : ∀ d i, (st d i).length = d.length) (is : List ι) (d : List Nat) :
    (is.foldl st d).length = d.length := by
  induction is generalizing d with
  | nil => rfl
  | cons a is ih => rw [List.foldl_cons, ih, hlen]

/-! ## What the constructor stores -/

theorem ctorStep_length (signedChar : Bool) (N : Nat) (key : Key) (str : List Nat)
    (e : List Nat) (i : Nat) :
    (encrypted_string.ctorStep signedChar N key str e i).length = e.length := by
  simp [encrypted_string.ctorStep]

theorem ctor_length (signedChar : Bool) (N : Nat) (key : Key) (str : List Nat) :
    (encrypted_string.ctor signedChar N key str).length = blockCount N := by
  unfold encrypted_string.ctor
  rw [foldl_length _ (ctorStep_length signedChar N key str)]
  simp

/-- Every storage index in the image of the scramble holds the encryption of the chunk at
that same index; every other storage index still holds the zero of `encrypted{}`. -/
theorem ctor_getD (signedChar : Bool) (N : Nat) (key : Key) (str : List Nat) (k : Nat)
    (hk : k < blockCount N) :
    ((∃ i ∈ List.range (blockCount N), scramble (blockCount N) i = k) →
      (encrypted_string.ctor signedChar N key str).getD k 0
        = encrypted_string.chunkBlock signedChar N key str k) ∧
    ((¬ ∃ i ∈ List.range (blockCount N), scramble (blockCount N) i = k) →
      (encrypted_string.ctor signedChar N key str).getD k 0 = 0) := by
  have hk2 : k < (List.replicate (blockCount N) 0).length := by simpa using hk
  have h := foldl_override (encrypted_string.ctorStep signedChar N key str)
    (fun i pos => scramble (blockCount N) i = pos)
    (encrypted_string.chunkBlock signedChar N key str) (List.range (blockCount N))
    (ctorStep_length signedChar N key str)
    (by
      intro d i pos _ hpos hW
      unfold encrypted_string.ctorStep
      simp only
      rw [getD_set_eq _ _ _ _ hpos, if_pos hW, hW]
      rfl)
    (by
      intro d i pos _ hpos hW
      unfold encrypted_string.ctorStep
      simp only
      rw [getD_set_eq _ _ _ _ hpos, if_neg hW])
    (List.replicate (blockCount N) 0) k hk2
  refine ⟨h.1, fun hno => ?_⟩
  have h2 := h.2 hno
  unfold encrypted_string.ctor
  rw [h2]
  simp [hk]

/-! ## What `decrypt` writes -/

theorem writeWord_length (N v base : Nat) (d : List Nat) :
    (writeWord N v base d).length = d.length := by
  unfold writeWord
  apply foldl_length
  intro d j
  split_ifs <;> simp

/-- Inside its window `[base, base + 4)` and below `N - 1`, `writeWord` stores the byte
of `v` selected by the distance from `base`; everywhere else it stores nothing. -/
theorem writeWord_getD (N v base : Nat) (d : List Nat) (pos : Nat) (hpos : pos < d.length) :
    ((base ≤ pos ∧ pos < base + 4 ∧ pos < N - 1) →
      (writeWord N v base d).getD pos 0 = (v >>> ((pos - base) * 8)) &&& 0xFF) ∧
    ((¬ (base ≤ pos ∧ pos < base + 4 ∧ pos < N - 1)) →
      (writeWord N v base d).getD pos 0 = d.getD pos 0) := by
  have h := foldl_override
    (fun d j => if base + j < N - 1 then d.set (base + j) ((v >>> (j * 8)) &&& 0xFF) else d)
    (fun j pos => base + j < N - 1 ∧ base + j = pos)
    (fun pos => (v >>> ((pos - base) * 8)) &&& 0xFF) (List.range 4)
    (by intro d j; simp only; split_ifs <;> simp)
    (by
      intro d j pos _ hpos hW
      obtain ⟨h1, h2⟩ := hW
      simp only
      rw [if_pos h1, getD_set_eq _ _ _ _ hpos, if_pos h2, ← h2, Nat.add_sub_cancel_left])
    (by
      intro d j pos _ hpos hW
      simp only
      split_ifs with h1
      · rw [getD_set_eq _ _ _ _ hpos, if_neg (fun h2 => hW ⟨h1, h2⟩)]
      · rfl)
    d pos hpos
  constructor
  · rintro ⟨h1, h2, h3⟩
    apply h.1
    refine ⟨pos - base, List.mem_range.mpr (by omega), ?_, ?_⟩ <;> omega
  · intro hno
    apply h.2
    rintro ⟨j, hj, h1, h2⟩
    have := List.mem_range.mp hj
    exact hno ⟨by omega, by omega, by omega⟩

theorem decStep_length (N : Nat) (key : Key) (e d : List Nat) (i : Nat) :
    (encrypted_string.decStep N key e d i).length = d.length := by
  unfold encrypted_string.decStep
  simp only [writeWord_length]

/-- One iteration of `decrypt` stores `plainByte` at the positions below `N - 1` of the
block it visits and leaves every other position alone. -/
theorem decStep_getD (N : Nat) (key : Key) (e d : List Nat) (i pos : Nat)
    (hpos : pos < d.length) :
    ((pos < N - 1 ∧ pos / 8 = scramble (blockCount N) i) →
      (encrypted_string.decStep N key e d i).getD pos 0
        = encrypted_string.plainByte key e pos) ∧
    ((¬ (pos < N - 1 ∧ pos / 8 = scramble (blockCount N) i)) →
      (encrypted_string.decStep N key e d i).getD pos 0 = d.getD pos 0) := by
  unfold encrypted_string.decStep
  simp only
  generalize scramble (blockCount N) i = idx
  have hpos1 : pos < (writeWord N
      (high32 (decrypt_block (high32 (e.getD idx 0)) (low32 (e.getD idx 0)) key))
      (idx * 8) d).length := by rw [writeWord_length]; exact hpos
  have hA := writeWord_getD N
    (high32 (decrypt_block (high32 (e.getD idx 0)) (low32 (e.getD idx 0)) key)) (idx * 8) d
    pos hpos
  have hB := writeWord_getD N
    (low32 (decrypt_block (high32 (e.getD idx 0)) (low32 (e.getD idx 0)) key)) (idx * 8 + 4)
    (writeWord N (high32 (decrypt_block (high32 (e.getD idx 0)) (low32 (e.getD idx 0)) key))
      (idx * 8) d) pos hpos1
  constructor
  · rintro ⟨h1, h2⟩
    unfold encrypted_string.plainByte
    simp only
    rw [h2]
    by_cases h4 : pos % 8 < 4
    · rw [if_pos h4, hB.2 (by omega), hA.1 ⟨by omega, by omega, h1⟩]
      congr 3
      omega
    · rw [if_neg h4, hB.1 ⟨by omega, by omega, h1⟩]
      congr 3
      omega
  · intro hno
    rw [hB.2 (by omega), hA.2 (by omega)]

theorem decrypt_length (N : Nat) (key : Key) (e d : List Nat) :
    (encrypted_string.decrypt N key e d).length = d.length := by
  unfold encrypted_string.decrypt
  rw [List.length_set, foldl_length _ (decStep_length N key e)]

/-- Complete description of the buffer after `decrypt`: position `N - 1` holds 0, a
position below `N - 1` whose block index `pos / 8` is visited holds `plainByte`, and a
position below `N - 1` whose block index is never visited keeps its previous contents. -/
theorem decrypt_getD (N : Nat) (key : Key) (e d : List Nat) (pos : Nat)
    (hd : d.length = N) (hpos : pos < N) :
    (pos = N - 1 → (encrypted_string.decrypt N key e d)[pos]? = some 0) ∧
    (pos < N - 1 → (∃ i ∈ List.range (blockCount N), scramble (blockCount N) i = pos / 8) →
      (encrypted_string.decrypt N key e d).getD pos 0
        = encrypted_string.plainByte key e pos) ∧
    (pos < N - 1 → (¬ ∃ i ∈ List.range (blockCount N), scramble (blockCount N) i = pos / 8) →
      (encrypted_string.decrypt N key e d).getD pos 0 = d.getD pos 0) := by
  have hpd : pos < d.length := by omega
  have h := foldl_override (encrypted_string.decStep N key e)
    (fun i pos => pos < N - 1 ∧ pos / 8 = scramble (blockCount N) i)
    (encrypted_string.plainByte key e) (List.range (blockCount N))
    (decStep_length N key e)
    (fun d i pos _ hpos hW => (decStep_getD N key e d i pos hpos).1 hW)
    (fun d i pos _ hpos hW => (decStep_getD N key e d i pos hpos).2 hW)
    d pos hpd
  have hlen := foldl_length _ (decStep_length N key e) (List.range (blockCount N)) d
  unfold encrypted_string.decrypt
  refine ⟨fun h1 => ?_, fun h1 hex => ?_, fun h1 hno => ?_⟩
  · subst h1
    simp only [List.getElem?_set, hlen]
    rw [if_pos trivial, if_pos hpd]
  · rw [getD_set_eq _ _ _ _ (by rw [hlen]; exact hpd), if_neg (by omega)]
    obtain ⟨i, hi, hs⟩ := hex
    exact h.1 ⟨i, hi, h1, hs.symm⟩
  · rw [getD_set_eq _ _ _ _ (by rw [hlen]; exact hpd), if_neg (by omega)]
    apply h.2
    rintro ⟨i, hi, _, hs⟩
    exact hno ⟨i, hi, hs.symm⟩

/-! ## Packing and unpacking four bytes -/

theorem charToU32_of_small (signedChar : Bool) (c : Nat) (h : c < 256)
    (h7 : signedChar = true → c < 128) : charToU32 signedChar c = c := by
  unfold charToU32 U32
  cases signedChar with
  | false => simp; omega
  | true =>
    have := h7 rfl
    rw [if_neg (by simp; omega)]
    omega

theorem getD_mem_or_zero (P : Nat → Prop) (str : List Nat) (h : ∀ c ∈ str, P c) (h0 : P 0)
    (p : Nat) : P (str.getD p 0) := by
  by_cases hp : p < str.length
  · rw [List.getD_eq_getElem _ _ hp]
    exact h _ (List.getElem_mem hp)
  · rw [List.getD_eq_default _ _ (by omega)]
    exact h0

theorem contentByte_lt (N : Nat) (str : List Nat) (h : ∀ c ∈ str, c < 256) (p : Nat) :
    contentByte N str p < 256 := by
  unfold contentByte
  split_ifs
  · exact getD_mem_or_zero (fun c => c < 256) str h (by norm_num) p
  · norm_num

theorem or_shift_eq_add (acc b i : Nat) (h : acc < 2 ^ i) :
    acc ||| (b <<< i) = acc + 2 ^ i * b := by
  rw [Nat.shiftLeft_eq, Nat.lor_comm, Nat.mul_comm, ← Nat.mul_add_lt_is_or h, Nat.add_comm]

theorem pack4_eq (a b c d : Nat) (ha : a < 256) (hb : b < 256) (hc : c < 256) (hd : d < 256) :
    (((0 ||| (a <<< (0 * 8)) % U32) ||| (b <<< (1 * 8)) % U32) ||| (c <<< (2 * 8)) % U32)
        ||| (d <<< (3 * 8)) % U32
      = a + 256 * b + 65536 * c + 16777216 * d := by
  have e0 : (a <<< (0 * 8)) % U32 = a := by
    rw [Nat.shiftLeft_eq]; unfold U32; omega
  have e1 : (b <<< (1 * 8)) % U32 = b <<< 8 := by
    simp only [Nat.shiftLeft_eq]; unfold U32; norm_num; omega
  have e2 : (c <<< (2 * 8)) % U32 = c <<< 16 := by
    simp only [Nat.shiftLeft_eq]; unfold U32; norm_num; omega
  have e3 : (d <<< (3 * 8)) % U32 = d <<< 24 := by
    simp only [Nat.shiftLeft_eq]; unfold U32; norm_num; omega
  rw [e0, e1, e2, e3, Nat.zero_or, or_shift_eq_add a b 8 (by omega),
    or_shift_eq_add _ c 16 (by omega), or_shift_eq_add _ d 24 (by omega)]
  omega

theorem packWord_unfold (signedChar : Bool) (N : Nat) (str : List Nat) (base : Nat) :
    packWord signedChar N str base =
      (((0 ||| ((if base + 0 < N - 1 then charToU32 signedChar (str.getD (base + 0) 0) else 0)
            <<< (0 * 8)) % U32)
          ||| ((if base + 1 < N - 1 then charToU32 signedChar (str.getD (base + 1) 0) else 0)
            <<< (1 * 8)) % U32)
          ||| ((if base + 2 < N - 1 then charToU32 signedChar (str.getD (base + 2) 0) else 0)
            <<< (2 * 8)) % U32)
          ||| ((if base + 3 < N - 1 then charToU32 signedChar (str.getD (base + 3) 0) else 0)
            <<< (3 * 8)) % U32 := by
  have h4 : List.range 4 = [0, 1, 2, 3] := by decide
  unfold packWord
  rw [h4]
  rfl

theorem packWord_lt (signedChar : Bool) (N : Nat) (str : List Nat) (base : Nat) :
    packWord signedChar N str base < U32 := by
  rw [packWord_unfold]
  have hm : ∀ x : Nat, x % U32 < 2 ^ 32 := fun x => Nat.mod_lt _ (by unfold U32; norm_num)
  have h0 : (0 : Nat) < 2 ^ 32 := by norm_num
  exact Nat.or_lt_two_pow (Nat.or_lt_two_pow (Nat.or_lt_two_pow (Nat.or_lt_two_pow h0 (hm _))
    (hm _)) (hm _)) (hm _)

theorem charToU32_content (signedChar : Bool) (N : Nat) (str : List Nat)
    (h : ∀ c ∈ str, c < 256) (h7 : signedChar = true → ∀ c ∈ str, c < 128) (p : Nat) :
    (if p < N - 1 then charToU32 signedChar (str.getD p 0) else 0) = contentByte N str p := by
  unfold contentByte
  split_ifs
  · apply charToU32_of_small
    · exact getD_mem_or_zero (fun c => c < 256) str h (by norm_num) p
    · intro hs
      exact getD_mem_or_zero (fun c => c < 128) str (h7 hs) (by norm_num) p
  · rfl

/-- When every char converts to its own bit pattern, the packed word is the little-endian
value of the four bytes from `base`. -/
theorem packWord_eq_sum (signedChar : Bool) (N : Nat) (str : List Nat) (base : Nat)
    (h : ∀ c ∈ str, c < 256) (h7 : signedChar = true → ∀ c ∈ str, c < 128) :
    packWord signedChar N str base =
      contentByte N str base + 256 * contentByte N str (base + 1)
        + 65536 * contentByte N str (base + 2) + 16777216 * contentByte N str (base + 3) := by
  rw [packWord_unfold]
  simp only [charToU32_content signedChar N str h h7]
  rw [pack4_eq _ _ _ _ (contentByte_lt N str h _) (contentByte_lt N str h _)
    (contentByte_lt N str h _) (contentByte_lt N str h _)]
  rfl

theorem byte_of_sum (a b c d j : Nat) (ha : a < 256) (hb : b < 256) (hc : c < 256)
    (hd : d < 256) (hj : j < 4) :
    ((a + 256 * b + 65536 * c + 16777216 * d) >>> (j * 8)) &&& 0xFF
      = if j = 0 then a else if j = 1 then b else if j = 2 then c else d := by
  have h := Nat.and_pow_two_sub_one_eq_mod
    ((a + 256 * b + 65536 * c + 16777216 * d) >>> (j * 8)) 8
  norm_num at h
  rw [h, Nat.shiftRight_eq_div_pow]
  interval_cases j
  · norm_num; omega
  · norm_num; omega
  · norm_num; omega
  · norm_num; omega

/-- Byte `j` of the packed word is the content byte at `base + j`. -/
theorem packWord_byte (signedChar : Bool) (N : Nat) (str : List Nat) (base j : Nat)
    (h : ∀ c ∈ str, c < 256) (h7 : signedChar = true → ∀ c ∈ str, c < 128) (hj : j < 4) :
    (packWord signedChar N str base >>> (j * 8)) &&& 0xFF = contentByte N str (base + j) := by
  rw [packWord_eq_sum signedChar N str base h h7,
    byte_of_sum _ _ _ _ j (contentByte_lt N str h _) (contentByte_lt N str h _)
      (contentByte_lt N str h _) (contentByte_lt N str h _) hj]
  interval_cases j <;> simp

/-! ## The scramble when 5 does not divide the block count -/

theorem scramble_lt (size i : Nat) (h : 0 < size) : scramble size i < size :=
  Nat.mod_lt _ h

/-- When 5 does not divide `size`, every storage index is reached by the scramble. -/
theorem scramble_surj (size k : Nat) (h5 : ¬ 5 ∣ size) (hk : k < size) :
    ∃ i ∈ List.range size, scramble size i = k := by
  have hco : Nat.Coprime 5 size := (Nat.Prime.coprime_iff_not_dvd (by norm_num)).mpr h5
  by_cases h1 : size = 1
  · subst h1
    exact ⟨0, by simp, by unfold scramble; omega⟩
  · obtain ⟨m, hm⟩ := Nat.exists_mul_emod_eq_one_of_coprime hco (by omega)
    refine ⟨(m * k) % size, List.mem_range.mpr (Nat.mod_lt _ (by omega)), ?_⟩
    unfold scramble
    rw [Nat.mod_mul_mod]
    have e : m * k * 5 = k * (5 * m) := by ring
    rw [e, Nat.mul_mod, hm, Nat.mod_eq_of_lt hk, Nat.mul_one, Nat.mod_eq_of_lt hk]

/-! ## Decrypting what the constructor stored -/

/-- At a storage index that the constructor visited, `decrypt` recovers the content byte,
provided every char converts to its own bit pattern. -/
theorem plainByte_ctor (signedChar : Bool) (N : Nat) (key : Key) (str : List Nat) (pos : Nat)
    (h : ∀ c ∈ str, c < 256) (h7 : signedChar = true → ∀ c ∈ str, c < 128)
    (hpos : pos < N - 1)
    (hex : ∃ i ∈ List.range (blockCount N), scramble (blockCount N) i = pos / 8) :
    encrypted_string.plainByte key (encrypted_string.ctor signedChar N key str) pos
      = str.getD pos 0 := by
  have hk : pos / 8 < blockCount N := by unfold blockCount; omega
  have hE := (ctor_getD signedChar N key str (pos / 8) hk).1 hex
  have hp1 := packWord_lt signedChar N str (pos / 8 * 8)
  have hp2 := packWord_lt signedChar N str (pos / 8 * 8 + 4)
  unfold encrypted_string.plainByte
  simp only
  rw [hE]
  unfold encrypted_string.chunkBlock
  rw [decrypt_encrypt_block key _ _ hp1 hp2, high32_pack64 _ _ hp1 hp2,
    low32_pack64 _ _ hp1 hp2]
  have hb : contentByte N str pos = str.getD pos 0 := by
    unfold contentByte
    rw [if_pos hpos]
  split_ifs with h4
  · rw [packWord_byte signedChar N str _ _ h h7 h4, ← hb]
    congr 1
    omega
  · rw [packWord_byte signedChar N str _ _ h h7 (by omega), ← hb]
    congr 1
    omega

theorem list_eq_of_getD (l1 l2 : List Nat) (hl : l1.length = l2.length)
    (h : ∀ p, p < l1.length → l1.getD p 0 = l2.getD p 0) : l1 = l2 := by
  apply List.ext_getElem hl
  intro p h1 h2
  have := h p h1
  rwa [List.getD_eq_getElem _ _ h1, List.getD_eq_getElem _ _ h2] at this

/-- Round trip of the container whenever 5 does not divide the block count and every char
converts to its own bit pattern, from any previous contents of the buffer. -/
theorem decrypt_ctor (signedChar : Bool) (N : Nat) (key : Key) (str d : List Nat)
    (hlit : IsLiteral N str) (hN : 1 ≤ N)
    (h7 : signedChar = true → ∀ c ∈ str, c < 128)
    (h5 : ¬ 5 ∣ blockCount N) (hd : d.length = N) :
    encrypted_string.decrypt N key (encrypted_string.ctor signedChar N key str) d = str := by
  obtain ⟨hlen, h256, hterm⟩ := hlit
  apply list_eq_of_getD
  · rw [decrypt_length, hd, hlen]
  · intro pos hpos
    rw [decrypt_length, hd] at hpos
    have hg := decrypt_getD N key (encrypted_string.ctor signedChar N key str) d pos hd hpos
    by_cases hlast : pos = N - 1
    · have h0 := hg.1 hlast
      have h1 : str.getD pos 0 = 0 := by
        rw [List.getD_eq_getElem _ _ (by omega)] at hterm
        rw [hlast, List.getD_eq_getElem _ _ (by omega)]
        exact hterm
      rw [h1, List.getD_eq_getElem?_getD, h0]
      rfl
    · have hlt : pos < N - 1 := by omega
      have hex := scramble_surj (blockCount N) (pos / 8) h5 (by unfold blockCount; omega)
      rw [hg.2.1 hlt hex]
      exact plainByte_ctor signedChar N key str pos h256 h7 hlt hex

/-! ## Properties of the specification -/

/-- C1. Block cipher round trip: for every key and every pair of 32-bit words `v0`, `v1`,
decrypting the high and low halves of `encrypt_block v0 v1 key` under the same key
returns `(v0 << 32) | v1`, which is `v0 * 2^32 + v1`. -/
theorem C1_block_round_trip (key : Key) (v0 v1 : Nat) (h0 : v0 < 2 ^ 32) (h1 : v1 < 2 ^ 32) :
    decrypt_block (high32 (encrypt_block v0 v1 key)) (low32 (encrypt_block v0 v1 key)) key
        = pack64 v0 v1
      ∧ pack64 v0 v1 = v0 * 2 ^ 32 + v1 :=
  ⟨decrypt_encrypt_block key v0 v1 h0 h1, pack64_eq v0 v1 h0 h1⟩

/-- Witness for C1 at key `(3, 4, 5, 6)` and block `(1, 2)`. -/
theorem C1_block_round_trip_witness :
    (1 < 2 ^ 32 ∧ 2 < 2 ^ 32) ∧
    (decrypt_block (high32 (encrypt_block 1 2 ⟨3, 4, 5, 6⟩))
        (low32 (encrypt_block 1 2 ⟨3, 4, 5, 6⟩)) ⟨3, 4, 5, 6⟩ = pack64 1 2
      ∧ pack64 1 2 = 1 * 2 ^ 32 + 2) :=
  ⟨⟨by norm_num, by norm_num⟩, C1_block_round_trip ⟨3, 4, 5, 6⟩ 1 2 (by norm_num) (by norm_num)⟩

/-- C2. End-to-end round trip, evaluated at the literal
`"0123456789ABCDEFGHIJKLMNOPQRSTUVWXYZ"` (`N = 37`) with seed `(1, 2, 3, 4)` and the
zero-initialised buffer: the container has five blocks, only block 0 is ever stored, and
`decrypt` returns `"01234567"` followed by zeros instead of the text, whether `char` is
signed or not. Where `char` is signed, the two-char literal `"\x80A"` (`N = 3`) also comes
back changed, as `0x80, 0xFF, 0`: the sign extension of the first char covers the
second. -/
theorem C2_round_trip_fails_at_N37 :
    IsLiteral 37 text37 ∧ blockCount 37 = 5 ∧
    encrypted_string.ctor true 37 (encrypted_string.key 1 2 3 4) text37
      = [17376711760412148608, 0, 0, 0, 0] ∧
    encrypted_string.decrypt 37 (encrypted_string.key 1 2 3 4)
        (encrypted_string.ctor true 37 (encrypted_string.key 1 2 3 4) text37) (freshBuffer 37)
      = [48, 49, 50, 51, 52, 53, 54, 55] ++ List.replicate 29 0 ∧
    encrypted_string.decrypt 37 (encrypted_string.key 1 2 3 4)
        (encrypted_string.ctor true 37 (encrypted_string.key 1 2 3 4) text37) (freshBuffer 37)
      ≠ text37 ∧
    encrypted_string.decrypt 37 (encrypted_string.key 1 2 3 4)
        (encrypted_string.ctor false 37 (encrypted_string.key 1 2 3 4) text37) (freshBuffer 37)
      ≠ text37 ∧
    encrypted_string.decrypt 3 (encrypted_string.key 1 2 3 4)
        (encrypted_string.ctor true 3 (encrypted_string.key 1 2 3 4) (literal [128, 65]))
        (freshBuffer 3)
      = [128, 255, 0] := by
  decide

/-- C3. Scramble bijection, evaluated at `N = 33`: the container has five blocks and the
index map `i ↦ (i * 5) % 5` sends every construction index to 0, so it is not a
permutation of `{0, ..., 4}`. -/
theorem C3_scramble_collapses_at_N33 :
    blockCount 33 = 5 ∧
    (List.range (blockCount 33)).map (scramble (blockCount 33)) = [0, 0, 0, 0, 0] ∧
    ¬ (∀ k, k < blockCount 33 → ∃ i ∈ List.range (blockCount 33), scramble (blockCount 33) i = k) := by
  refine ⟨by decide, by decide, fun h => ?_⟩
  obtain ⟨i, _, hi⟩ := h 1 (by decide)
  have h5 : blockCount 33 = 5 := by decide
  rw [h5] at hi
  unfold scramble at hi
  omega

/-- C4, as stated, fails at `N = 1`: the container holds one block while
`ceil((N - 1) / 8)` is zero. -/
theorem C4_counterexample : blockCount 1 = 1 ∧ specBlockCount 1 = 0 ∧
    blockCount 1 ≠ specBlockCount 1 := by
  decide

/-- C4, amended. For every `N ≥ 1` the container holds `ceil(N / 8)` blocks, the terminator
position counted: this is `ceil((N - 1) / 8)` when `N - 1` is not a multiple of 8 and one
block more when it is. -/
theorem C4_block_count (N : Nat) (hN : 1 ≤ N) :
    (N ≤ 8 * blockCount N ∧ 8 * blockCount N < N + 8) ∧
    blockCount N = specBlockCount N + (if (N - 1) % 8 = 0 then 1 else 0) := by
  unfold blockCount specBlockCount
  split_ifs <;> omega

/-- Witness for C4 at `N = 9`: two blocks, one more than `ceil(8 / 8)`. -/
theorem C4_block_count_witness :
    1 ≤ 9 ∧ ((9 ≤ 8 * blockCount 9 ∧ 8 * blockCount 9 < 9 + 8) ∧
      blockCount 9 = specBlockCount 9 + (if (9 - 1) % 8 = 0 then 1 else 0)) :=
  ⟨by decide, C4_block_count 9 (by decide)⟩

/-- C5. Boundary lengths, evaluated at the literal `"ABCDEFGHIJKLMNOPQRSTUVWXYZabcdef"`
(`N = 33`, `N - 1` a multiple of 8) with seed `(1, 2, 3, 4)` and the zero-initialised
buffer: `decrypt` returns `"ABCDEFGH"` followed by zeros instead of the text. -/
theorem C5_boundary_fails_at_N33 :
    IsLiteral 33 text33 ∧ (33 - 1) % 8 = 0 ∧
    encrypted_string.decrypt 33 (encrypted_string.key 1 2 3 4)
        (encrypted_string.ctor true 33 (encrypted_string.key 1 2 3 4) text33) (freshBuffer 33)
      = [65, 66, 67, 68, 69, 70, 71, 72] ++ List.replicate 25 0 ∧
    encrypted_string.decrypt 33 (encrypted_string.key 1 2 3 4)
        (encrypted_string.ctor true 33 (encrypted_string.key 1 2 3 4) text33) (freshBuffer 33)
      ≠ text33 ∧
    encrypted_string.decrypt 33 (encrypted_string.key 1 2 3 4)
        (encrypted_string.ctor false 33 (encrypted_string.key 1 2 3 4) text33) (freshBuffer 33)
      ≠ text33 := by
  decide

/-- C6. Concrete scenario: for the literal `"HELLO"` (`N = 6`), every seed tuple, either
signedness of `char` and every previous contents of the 6-byte buffer, constructing the
container and calling `decrypt` returns `'H','E','L','L','O',0`. -/
theorem C6_hello (signedChar : Bool) (S1 S2 S3 S4 : Nat) (d : List Nat) (hd : d.length = 6) :
    encrypted_string.decrypt 6 (encrypted_string.key S1 S2 S3 S4)
        (encrypted_string.ctor signedChar 6 (encrypted_string.key S1 S2 S3 S4) helloText) d
      = [72, 69, 76, 76, 79, 0] :=
  decrypt_ctor signedChar 6 (encrypted_string.key S1 S2 S3 S4) helloText d (by decide)
    (by decide) (fun _ => by decide) (by decide) hd

/-- Witness for C6 at seed `(1, 2, 3, 4)`, signed `char` and the zero-initialised buffer. -/
theorem C6_hello_witness :
    (freshBuffer 6).length = 6 ∧
    encrypted_string.decrypt 6 (encrypted_string.key 1 2 3 4)
        (encrypted_string.ctor true 6 (encrypted_string.key 1 2 3 4) helloText) (freshBuffer 6)
      = [72, 69, 76, 76, 79, 0] :=
  ⟨by decide, C6_hello true 1 2 3 4 (freshBuffer 6) (by decide)⟩

/-- C7. Key derivation: for 32-bit seeds `s0 .. s3`, `generate(s0, s1, s2, s3)` is
`[s2, s0, s3, s1]`; all-zero seeds give the all-zero key; and a call with three, two, one
or no seeds returns what the same call padded with zeros to four seeds returns. -/
theorem C7_generate (s0 s1 s2 s3 : Nat) (h0 : s0 < 2 ^ 32) (h1 : s1 < 2 ^ 32)
    (h2 : s2 < 2 ^ 32) (h3 : s3 < 2 ^ 32) :
    generate [s0, s1, s2, s3] (Nat.le_refl 4) = ⟨s2, s0, s3, s1⟩ ∧
    generate [0, 0, 0, 0] (Nat.le_refl 4) = ⟨0, 0, 0, 0⟩ ∧
    generate [s0, s1, s2] (by decide : (3 : Nat) ≤ 4) = ⟨s2, s0, 0, s1⟩ ∧
    generate [s0, s1] (by decide : (2 : Nat) ≤ 4) = ⟨0, s0, 0, s1⟩ ∧
    generate [s0] (by decide : (1 : Nat) ≤ 4) = ⟨0, s0, 0, 0⟩ ∧
    generate [] (by decide : (0 : Nat) ≤ 4) = ⟨0, 0, 0, 0⟩ := by
  unfold generate U32
  simp only [List.getD_cons_succ, List.getD_cons_zero, List.getD_nil]
  rw [Nat.mod_eq_of_lt h0, Nat.mod_eq_of_lt h1, Nat.mod_eq_of_lt h2, Nat.mod_eq_of_lt h3]
  exact ⟨rfl, rfl, rfl, rfl, rfl, rfl⟩

/-- Witness for C7 at seeds `(1, 2, 3, 4)`. -/
theorem C7_generate_witness :
    (1 < 2 ^ 32 ∧ 2 < 2 ^ 32 ∧ 3 < 2 ^ 32 ∧ 4 < 2 ^ 32) ∧
    (generate [1, 2, 3, 4] (Nat.le_refl 4) = ⟨3, 1, 4, 2⟩ ∧
    generate [0, 0, 0, 0] (Nat.le_refl 4) = ⟨0, 0, 0, 0⟩ ∧
    generate [1, 2, 3] (by decide : (3 : Nat) ≤ 4) = ⟨3, 1, 0, 2⟩ ∧
    generate [1, 2] (by decide : (2 : Nat) ≤ 4) = ⟨0, 1, 0, 2⟩ ∧
    generate [1] (by decide : (1 : Nat) ≤ 4) = ⟨0, 1, 0, 0⟩ ∧
    generate [] (by decide : (0 : Nat) ≤ 4) = ⟨0, 0, 0, 0⟩) :=
  ⟨by norm_num, C7_generate 1 2 3 4 (by norm_num) (by norm_num) (by norm_num) (by norm_num)⟩

/-- C10. Null termination: for every `N ≥ 1`, every key, every block contents and every
previous contents of the `N`-byte buffer, the byte at position `N - 1` after `decrypt`
is 0. -/
theorem C10_null_terminated (N : Nat) (key : Key) (encrypted d : List Nat) (hN : 1 ≤ N)
    (hd : d.length = N) :
    (encrypted_string.decrypt N key encrypted d)[N - 1]? = some 0 :=
  (decrypt_getD N key encrypted d (N - 1) hd (by omega)).1 rfl

/-- Witness for C10 at `N = 6`, one arbitrary block and a buffer filled with `'X'`. -/
theorem C10_null_terminated_witness :
    (1 ≤ 6 ∧ (List.replicate 6 88).length = 6) ∧
    (encrypted_string.decrypt 6 (encrypted_string.key 1 2 3 4) [12345]
      (List.replicate 6 88))[6 - 1]? = some 0 :=
  ⟨by decide, C10_null_terminated 6 (encrypted_string.key 1 2 3 4) [12345]
    (List.replicate 6 88) (by decide) (by decide)⟩

/-! ## Checked execution never fails -/

/-- A checked loop whose every step succeeds with the result of the unchecked step, on
states that satisfy an invariant kept by the steps, succeeds with the unchecked result. -/
theorem foldlM_eq_some {σ ι : Type} (fc : σ → ι → Option σ) (f : σ → ι → σ) (P : σ → Prop)
    (is : List ι) (h : ∀ s i, i ∈ is → P s → fc s i = some (f s i) ∧ P (f s i))
    (s : σ) (hs : P s) :
    is.foldlM fc s = some (is.foldl f s) ∧ P (is.foldl f s) := by
  induction is generalizing s with
  | nil => exact ⟨rfl, hs⟩
  | cons a is ih =>
    have ha := h s a (List.mem_cons_self a is) hs
    have ih2 := ih (fun s i hi => h s i (List.mem_cons_of_mem a hi)) (f s a) ha.2
    rw [List.foldlM_cons, ha.1, List.foldl_cons]
    exact ih2

theorem blockCount_pos (N : Nat) (hN : 1 ≤ N) : 1 ≤ blockCount N := by
  unfold blockCount
  omega

theorem scrambleChk_eq (size i : Nat) (h : 1 ≤ size) :
    scrambleChk size i = some (scramble size i) := by
  unfold scrambleChk scramble
  rw [if_neg (by omega)]

/-- The packing loop reads only positions below `N - 1`: it succeeds as soon as the text
has `N - 1` chars. -/
theorem packWordChk_eq (signedChar : Bool) (N : Nat) (str : List Nat) (base : Nat)
    (hstr : N - 1 ≤ str.length) :
    packWordChk signedChar N str base = some (packWord signedChar N str base) := by
  unfold packWordChk packWord
  refine (foldlM_eq_some _ _ (fun _ => True) (List.range 4) ?_ 0 trivial).1
  intro part j hj _
  have hj4 := List.mem_range.mp hj
  refine ⟨?_, trivial⟩
  simp only
  rw [if_pos (by omega)]
  by_cases hp : base + j < N - 1
  · rw [if_pos hp, if_pos hp, List.getElem?_eq_getElem (by omega),
      List.getD_eq_getElem _ _ (by omega)]
    rfl
  · rw [if_neg hp, if_neg hp]
    rfl

theorem ctorChk_eq (signedChar : Bool) (N : Nat) (key : Key) (str : List Nat) (hN : 1 ≤ N)
    (hstr : N - 1 ≤ str.length) :
    encrypted_string.ctorChk signedChar N key str
      = some (encrypted_string.ctor signedChar N key str) := by
  unfold encrypted_string.ctorChk encrypted_string.ctor
  refine (foldlM_eq_some _ _ (fun e => e.length = blockCount N) (List.range (blockCount N))
    ?_ _ (by simp)).1
  intro e i _ he
  refine ⟨?_, by show (encrypted_string.ctorStep signedChar N key str e i).length = _
                 rw [ctorStep_length]; exact he⟩
  have hb := blockCount_pos N hN
  unfold encrypted_string.ctorStepChk encrypted_string.ctorStep
  rw [scrambleChk_eq _ _ hb, Option.some_bind, packWordChk_eq _ _ _ _ hstr, Option.some_bind,
    packWordChk_eq _ _ _ _ hstr, Option.some_bind, if_pos (by rw [he]; exact scramble_lt _ _ hb)]

theorem writeWordChk_eq (N v base : Nat) (d : List Nat) (hd : N ≤ d.length) :
    writeWordChk N v base d = some (writeWord N v base d) := by
  unfold writeWordChk writeWord
  refine (foldlM_eq_some _ _ (fun d => N ≤ d.length) (List.range 4) ?_ d hd).1
  intro d j hj hd
  have hj4 := List.mem_range.mp hj
  simp only
  by_cases hp : base + j < N - 1
  · rw [if_pos hp, if_pos hp, if_pos ⟨by omega, by omega⟩]
    exact ⟨rfl, by rw [List.length_set]; exact hd⟩
  · rw [if_neg hp, if_neg hp]
    exact ⟨rfl, hd⟩

theorem decryptChk_eq (N : Nat) (key : Key) (e d : List Nat) (hN : 1 ≤ N)
    (he : e.length = blockCount N) (hd : d.length = N) :
    encrypted_string.decryptChk N key e d = some (encrypted_string.decrypt N key e d) := by
  have hb := blockCount_pos N hN
  have hloop := foldlM_eq_some (encrypted_string.decStepChk N key e)
    (encrypted_string.decStep N key e) (fun d => N ≤ d.length) (List.range (blockCount N))
    (by
      intro d i _ hd
      refine ⟨?_, by show N ≤ (encrypted_string.decStep N key e d i).length
                     rw [decStep_length]; exact hd⟩
      have hidx : scramble (blockCount N) i < e.length := by
        rw [he]; exact scramble_lt _ _ hb
      unfold encrypted_string.decStepChk encrypted_string.decStep
      rw [scrambleChk_eq _ _ hb, Option.some_bind, List.getElem?_eq_getElem hidx,
        Option.some_bind]
      simp only
      rw [List.getD_eq_getElem _ _ hidx, writeWordChk_eq _ _ _ _ hd, Option.some_bind,
        writeWordChk_eq _ _ _ _ (by rw [writeWord_length]; exact hd)])
    d (by omega)
  unfold encrypted_string.decryptChk encrypted_string.decrypt
  rw [hloop.1, Option.some_bind, if_pos (by have := hloop.2; omega)]

/-! ## The scramble when 5 divides the block count -/

/-- When 5 divides `size`, construction indices 0 and `size / 5` share a storage index. -/
theorem scramble_collision (size : Nat) (h5 : 5 ∣ size) (hpos : 1 ≤ size) :
    size / 5 < size ∧ 0 ≠ size / 5 ∧ scramble size 0 = scramble size (size / 5) := by
  obtain ⟨k, hk⟩ := h5
  subst hk
  have hdiv : 5 * k / 5 = k := by omega
  rw [hdiv]
  refine ⟨by omega, by omega, ?_⟩
  unfold scramble
  rw [Nat.mul_comm k 5, Nat.mod_self, Nat.zero_mul, Nat.zero_mod]

/-- When 5 divides `size`, every storage index the scramble reaches is a multiple of 5. -/
theorem scramble_dvd (size i : Nat) (h5 : 5 ∣ size) : 5 ∣ scramble size i := by
  unfold scramble
  exact (Nat.dvd_mod_iff h5).mpr (Dvd.intro_left i rfl)

theorem scramble_inj (size i j : Nat) (hco : Nat.gcd size 5 = 1) (hi : i < size)
    (hj : j < size) (h : scramble size i = scramble size j) : i = j := by
  unfold scramble at h
  have hm : i ≡ j [MOD size] := Nat.ModEq.cancel_right_of_coprime hco h
  unfold Nat.ModEq at hm
  rwa [Nat.mod_eq_of_lt hi, Nat.mod_eq_of_lt hj] at hm

theorem isLiteral_replicate (N c : Nat) (hN : 1 ≤ N) (hc : c < 256) :
    IsLiteral N (literal (List.replicate (N - 1) c)) := by
  unfold IsLiteral literal
  refine ⟨by simp; omega, ?_, ?_⟩
  · intro x hx
    rcases List.mem_append.mp hx with h | h
    · rw [(List.mem_replicate.mp h).2]; exact hc
    · rw [List.mem_singleton.mp h]; norm_num
  · rw [List.getD_eq_getElem?_getD, List.getElem?_append_right (by simp)]
    simp

theorem getD_literal_replicate (N c p : Nat) (hp : p < N - 1) :
    (literal (List.replicate (N - 1) c)).getD p 0 = c := by
  unfold literal
  rw [List.getD_eq_getElem?_getD, List.getElem?_append_left (by simpa using hp)]
  simp [hp]

/-- C11. No runtime failure: for every `N ≥ 1` the block count is at least 1, every index
`(i * 5) % blockCount` is below the block count, and the checked constructor and the
checked `decrypt` (which fail on an out-of-range index, a zero modulus or a shift amount
of 32 or more) succeed with the results of the unchecked ones. The constructor needs
only the `N - 1` chars below position `N - 1`; `decrypt` needs only the `N` bytes of the
buffer. -/
theorem C11_no_runtime_failure (signedChar : Bool) (N : Nat) (key : Key)
    (str encrypted d : List Nat) (i : Nat) (hN : 1 ≤ N) (hstr : N - 1 ≤ str.length)
    (he : encrypted.length = blockCount N) (hd : d.length = N) :
    1 ≤ blockCount N ∧
    scramble (blockCount N) i < blockCount N ∧
    encrypted_string.ctorChk signedChar N key str
      = some (encrypted_string.ctor signedChar N key str) ∧
    encrypted_string.decryptChk N key encrypted d
      = some (encrypted_string.decrypt N key encrypted d) :=
  ⟨blockCount_pos N hN, scramble_lt _ _ (blockCount_pos N hN),
    ctorChk_eq signedChar N key str hN hstr, decryptChk_eq N key encrypted d hN he hd⟩

/-- Witness for C11 at `"ABCDEFGHIJKLMNOP"` without its terminator, three arbitrary blocks
and a buffer of 17 bytes `'X'`. -/
theorem C11_no_runtime_failure_witness :
    (1 ≤ 17 ∧ 17 - 1 ≤ (text17.take 16).length ∧ [1, 2, 3].length = blockCount 17 ∧
      (List.replicate 17 88).length = 17) ∧
    (1 ≤ blockCount 17 ∧
    scramble (blockCount 17) 1 < blockCount 17 ∧
    encrypted_string.ctorChk true 17 (encrypted_string.key 1 2 3 4) (text17.take 16)
      = some (encrypted_string.ctor true 17 (encrypted_string.key 1 2 3 4) (text17.take 16)) ∧
    encrypted_string.decryptChk 17 (encrypted_string.key 1 2 3 4) [1, 2, 3]
        (List.replicate 17 88)
      = some (encrypted_string.decrypt 17 (encrypted_string.key 1 2 3 4) [1, 2, 3]
        (List.replicate 17 88))) :=
  ⟨by decide, C11_no_runtime_failure true 17 (encrypted_string.key 1 2 3 4) (text17.take 16)
    [1, 2, 3] (List.replicate 17 88) 1 (by decide) (by decide) (by decide) (by decide)⟩

/-- C12. Collapse on multiples of 5: for every `N ≥ 1` whose block count is a multiple
of 5, two distinct construction indices below the block count share a storage index, and
for every key and every previous contents of the buffer there is a literal of length `N`
that `decrypt` of its container does not return. -/
theorem C12_collapse (signedChar : Bool) (N : Nat) (key : Key) (d : List Nat) (hN : 1 ≤ N)
    (h5 : 5 ∣ blockCount N) (hd : d.length = N) :
    (∃ i j, i < blockCount N ∧ j < blockCount N ∧ i ≠ j ∧
      scramble (blockCount N) i = scramble (blockCount N) j) ∧
    (∃ str, IsLiteral N str ∧
      encrypted_string.decrypt N key (encrypted_string.ctor signedChar N key str) d ≠ str) := by
  have hb := blockCount_pos N hN
  have hcol := scramble_collision (blockCount N) h5 hb
  have hN33 : 33 ≤ N := by
    obtain ⟨k, hk⟩ := h5
    unfold blockCount at hk hb
    omega
  refine ⟨⟨0, blockCount N / 5, by omega, hcol.1, hcol.2.1, hcol.2.2⟩, ?_⟩
  have hc : (if d.getD 8 0 = 65 then 66 else 65) < 256 := by split_ifs <;> norm_num
  refine ⟨literal (List.replicate (N - 1) (if d.getD 8 0 = 65 then 66 else 65)),
    isLiteral_replicate N _ hN hc, fun heq => ?_⟩
  have hg := (decrypt_getD N key (encrypted_string.ctor signedChar N key
    (literal (List.replicate (N - 1) (if d.getD 8 0 = 65 then 66 else 65)))) d 8 hd
    (by omega)).2.2 (by omega) (by
      rintro ⟨i, _, hi⟩
      have h1 := scramble_dvd (blockCount N) i h5
      rw [hi] at h1
      omega)
  rw [heq, getD_literal_replicate N _ 8 (by omega)] at hg
  split_ifs at hg <;> omega

/-- Witness for C12 at `N = 33` (five blocks), seed `(1, 2, 3, 4)` and the zero-initialised
buffer. -/
theorem C12_collapse_witness :
    (1 ≤ 33 ∧ 5 ∣ blockCount 33 ∧ (freshBuffer 33).length = 33) ∧
    ((∃ i j, i < blockCount 33 ∧ j < blockCount 33 ∧ i ≠ j ∧
      scramble (blockCount 33) i = scramble (blockCount 33) j) ∧
    (∃ str, IsLiteral 33 str ∧
      encrypted_string.decrypt 33 (encrypted_string.key 1 2 3 4)
        (encrypted_string.ctor true 33 (encrypted_string.key 1 2 3 4) str) (freshBuffer 33)
        ≠ str)) :=
  ⟨by decide, C12_collapse true 33 (encrypted_string.key 1 2 3 4) (freshBuffer 33)
    (by decide) (by decide) (by decide)⟩

/-- C13. Bijection characterisation: for every block count `size ≥ 1`, the index map
`i ↦ (i * 5) % size` is a bijection of `{0, ..., size - 1}` exactly when
`gcd(size, 5) = 1`. -/
theorem C13_bijective_iff_coprime (size : Nat) (h : 1 ≤ size) :
    ScrambleBijective size ↔ Nat.gcd size 5 = 1 := by
  constructor
  · intro hbij
    rcases Nat.coprime_or_dvd_of_prime (by norm_num : Nat.Prime 5) size with hco | h5
    · exact Nat.Coprime.symm hco
    · have hcol := scramble_collision size h5 h
      exact absurd (hbij.1 0 (by omega) (size / 5) hcol.1 hcol.2.2) hcol.2.1
  · intro hco
    have h5 : ¬ 5 ∣ size :=
      (Nat.Prime.coprime_iff_not_dvd (by norm_num : Nat.Prime 5)).mp (Nat.Coprime.symm hco)
    refine ⟨fun i hi j hj hs => scramble_inj size i j hco hi hj hs, fun k hk => ?_⟩
    obtain ⟨i, hi, hs⟩ := scramble_surj size k h5 hk
    exact ⟨i, List.mem_range.mp hi, hs⟩

/-- Witness for C13 at block count 3. -/
theorem C13_bijective_iff_coprime_witness :
    1 ≤ 3 ∧ (ScrambleBijective 3 ↔ Nat.gcd 3 5 = 1) :=
  ⟨by decide, C13_bijective_iff_coprime 3 (by decide)⟩

/-! ## Packing against the little-endian value -/

theorem leWord_eq_sum (N : Nat) (str : List Nat) (base : Nat) :
    leWord N str base =
      contentByte N str base + 256 * contentByte N str (base + 1)
        + 65536 * contentByte N str (base + 2) + 16777216 * contentByte N str (base + 3) := by
  have h4 : List.range 4 = [0, 1, 2, 3] := by decide
  unfold leWord
  rw [h4]
  simp only [List.map_cons, List.map_nil, List.sum_cons, List.sum_nil]
  norm_num
  omega

/-- When every char converts to its own bit pattern (unsigned `char`, or chars below
`0x80`), the packed word is the little-endian value of its four content bytes. -/
theorem packWord_eq_leWord (signedChar : Bool) (N : Nat) (str : List Nat) (base : Nat)
    (h : ∀ c ∈ str, c < 256) (h7 : signedChar = true → ∀ c ∈ str, c < 128) :
    packWord signedChar N str base = leWord N str base := by
  rw [packWord_eq_sum signedChar N str base h h7, leWord_eq_sum]

/-- C14. Little-endian chunk packing, evaluated at the literal `"\x80A"` (`N = 3`, one
block, `idx = 0`) where `char` is signed: `part1` is `0xFFFFFF80`, while the little-endian
value of the bytes `0x80, 0x41, 0, 0` is `0x4180`. Where `char` is unsigned the two
agree. -/
theorem C14_sign_extension_at_0x80 :
    IsLiteral 3 (literal [128, 65]) ∧ blockCount 3 = 1 ∧ scramble (blockCount 3) 0 = 0 ∧
    packWord true 3 (literal [128, 65]) (0 * 8) = 0xFFFFFF80 ∧
    leWord 3 (literal [128, 65]) (0 * 8) = 0x4180 ∧
    packWord true 3 (literal [128, 65]) (0 * 8) ≠ leWord 3 (literal [128, 65]) (0 * 8) ∧
    packWord false 3 (literal [128, 65]) (0 * 8) = leWord 3 (literal [128, 65]) (0 * 8) := by
  decide

/-- C15. Conditional end-to-end round trip: for every `N ≥ 1` whose block count
`(N + 7) / 8` is not divisible by 5, every literal of length `N` whose content bytes are
all in `0 .. 127`, every seed tuple, either signedness of `char` and every previous
contents of the `N`-byte buffer, `decrypt` of the constructed container is the literal. -/
theorem C15_conditional_round_trip (signedChar : Bool) (N S1 S2 S3 S4 : Nat)
    (str d : List Nat) (hN : 1 ≤ N) (h5 : ¬ 5 ∣ (N + 7) / 8) (hlit : IsLiteral N str)
    (h7 : ∀ p, p < N - 1 → str.getD p 0 < 128) (hd : d.length = N) :
    encrypted_string.decrypt N (encrypted_string.key S1 S2 S3 S4)
        (encrypted_string.ctor signedChar N (encrypted_string.key S1 S2 S3 S4) str) d
      = str := by
  refine decrypt_ctor signedChar N _ str d hlit hN (fun _ c hc => ?_) h5 hd
  obtain ⟨hlen, _, hterm⟩ := hlit
  obtain ⟨p, hp, rfl⟩ := List.getElem_of_mem hc
  by_cases hlast : p = N - 1
  · subst hlast
    rw [List.getD_eq_getElem _ _ hp] at hterm
    rw [hterm]
    norm_num
  · have := h7 p (by omega)
    rwa [List.getD_eq_getElem _ _ hp] at this

/-- Witness for C15 at `"ABCDEFGHIJKLMNOP"` (`N = 17`, three blocks), seed `(1, 2, 3, 4)`,
signed `char` and a buffer of 17 bytes `'X'`. -/
theorem C15_conditional_round_trip_witness :
    (1 ≤ 17 ∧ ¬ 5 ∣ (17 + 7) / 8 ∧ IsLiteral 17 text17 ∧
      (∀ p, p < 17 - 1 → text17.getD p 0 < 128) ∧ (List.replicate 17 88).length = 17) ∧
    encrypted_string.decrypt 17 (encrypted_string.key 1 2 3 4)
        (encrypted_string.ctor true 17 (encrypted_string.key 1 2 3 4) text17)
        (List.replicate 17 88)
      = text17 :=
  ⟨⟨by decide, by decide, by decide, by decide, by decide⟩,
    C15_conditional_round_trip true 17 1 2 3 4 text17 (List.replicate 17 88) (by decide)
      (by decide) (by decide) (by decide) (by decide)⟩

/-! ## The constructor against the in-order construction -/

theorem naiveCtor_length (signedChar : Bool) (N : Nat) (key : Key) (str : List Nat) :
    (encrypted_string.naiveCtor signedChar N key str).length = blockCount N := by
  unfold encrypted_string.naiveCtor
  rw [foldl_length _ (by intro d i; simp)]
  simp

theorem naiveCtor_getD (signedChar : Bool) (N : Nat) (key : Key) (str : List Nat) (k : Nat)
    (hk : k < blockCount N) :
    (encrypted_string.naiveCtor signedChar N key str).getD k 0
      = encrypted_string.chunkBlock signedChar N key str k := by
  have hk2 : k < (List.replicate (blockCount N) 0).length := by simpa using hk
  have h := foldl_override
    (fun e k => e.set k (encrypted_string.chunkBlock signedChar N key str k))
    (fun i pos => i = pos)
    (encrypted_string.chunkBlock signedChar N key str) (List.range (blockCount N))
    (by intro d i; simp)
    (by
      intro d i pos _ hpos hW
      simp only
      rw [getD_set_eq _ _ _ _ hpos, if_pos hW, hW])
    (by
      intro d i pos _ hpos hW
      simp only
      rw [getD_set_eq _ _ _ _ hpos, if_neg hW])
    (List.replicate (blockCount N) 0) k hk2
  exact h.1 ⟨k, List.mem_range.mpr hk, rfl⟩

/-- Slot `k` of the constructor's result holds `encrypt_block` of the words packed from
chunk `k` when `k` is in the image of `i ↦ (i * 5) % blockCount`, and 0 otherwise; when the
block count is coprime to 5 the result is the in-order construction on the packed words. -/
theorem ctor_linear_storage (signedChar : Bool) (N : Nat) (key : Key) (str : List Nat)
    (k : Nat) (hk : k < blockCount N) :
    (encrypted_string.ctor signedChar N key str)[k]?
      = some (if ∃ i, i < blockCount N ∧ scramble (blockCount N) i = k
          then encrypted_string.chunkBlock signedChar N key str k else 0) ∧
    (Nat.Coprime (blockCount N) 5 →
      encrypted_string.ctor signedChar N key str
        = encrypted_string.naiveCtor signedChar N key str) := by
  have hl := ctor_length signedChar N key str
  have hg := ctor_getD signedChar N key str k hk
  rw [List.getD_eq_getElem _ _ (by omega)] at hg
  refine ⟨?_, fun hco => ?_⟩
  · rw [List.getElem?_eq_getElem (by omega)]
    split_ifs with hex
    · obtain ⟨i, hi, hs⟩ := hex
      rw [hg.1 ⟨i, List.mem_range.mpr hi, hs⟩]
    · rw [hg.2 (fun ⟨i, hi, hs⟩ => hex ⟨i, List.mem_range.mp hi, hs⟩)]
  · have h5 : ¬ 5 ∣ blockCount N :=
      (Nat.Prime.coprime_iff_not_dvd (by norm_num : Nat.Prime 5)).mp (Nat.Coprime.symm hco)
    apply list_eq_of_getD
    · rw [hl, naiveCtor_length]
    · intro p hp
      rw [hl] at hp
      rw [naiveCtor_getD signedChar N key str p hp]
      exact (ctor_getD signedChar N key str p hp).1 (scramble_surj (blockCount N) p h5 hp)

theorem chunkBlock_eq_spec (signedChar : Bool) (N : Nat) (key : Key) (str : List Nat) (k : Nat)
    (h : ∀ c ∈ str, c < 256) (h7 : signedChar = true → ∀ c ∈ str, c < 128) :
    encrypted_string.chunkBlock signedChar N key str k = specChunkBlock N key str k := by
  unfold encrypted_string.chunkBlock specChunkBlock
  rw [packWord_eq_leWord signedChar N str _ h h7, packWord_eq_leWord signedChar N str _ h h7]

theorem specLinearCtor_length (N : Nat) (key : Key) (str : List Nat) :
    (specLinearCtor N key str).length = blockCount N := by
  simp [specLinearCtor]

theorem specLinearCtor_getD (N : Nat) (key : Key) (str : List Nat) (k : Nat)
    (hk : k < blockCount N) :
    (specLinearCtor N key str).getD k 0 = specChunkBlock N key str k := by
  have hl := specLinearCtor_length N key str
  rw [List.getD_eq_getElem _ _ (by omega)]
  simp [specLinearCtor]

/-- When every char converts to its own bit pattern (unsigned `char`, or chars below
`0x80`) and the block count is coprime to 5, the constructor's result is the in-order
construction on the bytes of the text. -/
theorem ctor_eq_specLinearCtor (signedChar : Bool) (N : Nat) (key : Key) (str : List Nat)
    (h : ∀ c ∈ str, c < 256) (h7 : signedChar = true → ∀ c ∈ str, c < 128)
    (hco : Nat.Coprime (blockCount N) 5) :
    encrypted_string.ctor signedChar N key str = specLinearCtor N key str := by
  have h5 : ¬ 5 ∣ blockCount N :=
    (Nat.Prime.coprime_iff_not_dvd (by norm_num : Nat.Prime 5)).mp (Nat.Coprime.symm hco)
  apply list_eq_of_getD
  · rw [ctor_length, specLinearCtor_length]
  · intro p hp
    rw [ctor_length] at hp
    rw [specLinearCtor_getD N key str p hp, ← chunkBlock_eq_spec signedChar N key str p h h7]
    exact (ctor_getD signedChar N key str p hp).1 (scramble_surj (blockCount N) p h5 hp)

/-- C16. Storage order is linear, evaluated at the literal `"\x80A"` (`N = 3`, one block,
storage index 0, in the image of the scramble, block count coprime to 5) with seed
`(1, 2, 3, 4)` where `char` is signed: `encrypted[0]` is `encrypt_block(0xFFFFFF80, 0)`,
not `encrypt_block` of the chunk's bytes `0x80, 0x41, 0, ...`, so the constructor's result
is not the in-order construction on the bytes of the text. Where `char` is unsigned the
two agree. -/
theorem C16_slot_differs_at_0x80 :
    IsLiteral 3 text3 ∧ 0 < blockCount 3 ∧ scramble (blockCount 3) 0 = 0 ∧
    Nat.gcd (blockCount 3) 5 = 1 ∧
    (encrypted_string.ctor true 3 (encrypted_string.key 1 2 3 4) text3)[0]?
      = some 12320525254366790812 ∧
    encrypt_block 0xFFFFFF80 0 (encrypted_string.key 1 2 3 4) = 12320525254366790812 ∧
    leWord 3 text3 (0 * 8) = 0x4180 ∧ leWord 3 text3 (0 * 8 + 4) = 0 ∧
    specChunkBlock 3 (encrypted_string.key 1 2 3 4) text3 0 = 10412441682221731625 ∧
    encrypted_string.ctor true 3 (encrypted_string.key 1 2 3 4) text3
      ≠ specLinearCtor 3 (encrypted_string.key 1 2 3 4) text3 ∧
    encrypted_string.ctor false 3 (encrypted_string.key 1 2 3 4) text3
      = specLinearCtor 3 (encrypted_string.key 1 2 3 4) text3 := by
  decide

/-! ## Keys that differ in two most significant bits -/

theorem xor_msb_low (b : Nat) (h : b < 2 ^ 31) : b ^^^ 2 ^ 31 = 2 ^ 31 + b := by
  apply Nat.eq_of_testBit_eq
  intro i
  rw [Nat.testBit_xor, Nat.testBit_two_pow]
  rcases Nat.lt_trichotomy i 31 with hi | hi | hi
  · rw [Nat.testBit_two_pow_add_gt hi b]
    have : ¬ 31 = i := by omega
    simp [this]
  · subst hi
    rw [Nat.testBit_two_pow_add_eq, Nat.testBit_lt_two_pow h]
    rfl
  · have hp : 2 ^ 32 ≤ 2 ^ i := Nat.pow_le_pow_right (by norm_num) (by omega)
    rw [Nat.testBit_lt_two_pow (by omega : b < 2 ^ i),
      Nat.testBit_lt_two_pow (by omega : 2 ^ 31 + b < 2 ^ i)]
    have : ¬ 31 = i := by omega
    simp [this]

theorem flipMsb_eq (a : Nat) (h : a < 2 ^ 32) :
    flipMsb a = if a < 2 ^ 31 then a + 2 ^ 31 else a - 2 ^ 31 := by
  have hM : (0x80000000 : Nat) = 2 ^ 31 := by norm_num
  unfold flipMsb
  rw [hM]
  split_ifs with hlt
  · rw [xor_msb_low a hlt, Nat.add_comm]
  · have hb : a - 2 ^ 31 < 2 ^ 31 := by omega
    have ha : a = (a - 2 ^ 31) ^^^ 2 ^ 31 := by rw [xor_msb_low _ hb]; omega
    rw [ha, Nat.xor_cancel_right, ← ha]

theorem flipMsb_lt (a : Nat) (h : a < 2 ^ 32) : flipMsb a < 2 ^ 32 := by
  rw [flipMsb_eq a h]
  split_ifs <;> omega

theorem flipMsb_ne (a : Nat) (h : a < 2 ^ 32) : flipMsb a ≠ a := by
  rw [flipMsb_eq a h]
  split_ifs <;> omega

/-- Adding a key word with its top bit flipped flips the top bit of the `uint32_t` sum. -/
theorem add_flipMsb (y k : Nat) (hk : k < 2 ^ 32) :
    (y + flipMsb k) % U32 = flipMsb ((y + k) % U32) := by
  have hlt : (y + k) % U32 < 2 ^ 32 := Nat.mod_lt _ (by unfold U32; norm_num)
  rw [flipMsb_eq k hk, flipMsb_eq _ hlt]
  unfold U32
  split_ifs <;> omega

theorem xor3_flip (a b c m : Nat) : (a ^^^ m) ^^^ b ^^^ (c ^^^ m) = a ^^^ b ^^^ c := by
  apply Nat.eq_of_testBit_eq
  intro i
  simp only [Nat.testBit_xor]
  cases a.testBit i <;> cases b.testBit i <;> cases c.testBit i <;> cases m.testBit i <;> rfl

/-- Flipping the top bit of both key words of a mixing term leaves the term unchanged. -/
theorem mix_flip (v sum ka kb : Nat) (ha : ka < 2 ^ 32) (hb : kb < 2 ^ 32) :
    mix v sum (flipMsb ka) (flipMsb kb) = mix v sum ka kb := by
  unfold mix
  rw [add_flipMsb _ ka ha, add_flipMsb _ kb hb]
  unfold flipMsb
  exact xor3_flip _ _ _ _

theorem encLoop_congr (key1 key2 : Key) (h : ∀ r, encRound key1 r = encRound key2 r)
    (n : Nat) (r : Regs) : encLoop key1 n r = encLoop key2 n r := by
  induction n generalizing r with
  | zero => rfl
  | succ n ih =>
    show encLoop key1 n (encRound key1 r) = encLoop key2 n (encRound key2 r)
    rw [h, ih]

theorem decLoop_congr (key1 key2 : Key) (h : ∀ r, decRound key1 r = decRound key2 r)
    (n : Nat) (r : Regs) : decLoop key1 n r = decLoop key2 n r := by
  induction n generalizing r with
  | zero => rfl
  | succ n ih =>
    show decLoop key1 n (decRound key1 r) = decLoop key2 n (decRound key2 r)
    rw [h, ih]

/-- Two keys whose mixing terms agree encrypt and decrypt every block alike. -/
theorem cipher_congr (key1 key2 : Key)
    (hA : ∀ v sum, mix v sum key1.k0 key1.k1 = mix v sum key2.k0 key2.k1)
    (hB : ∀ v sum, mix v sum key1.k2 key1.k3 = mix v sum key2.k2 key2.k3) (v0 v1 : Nat) :
    encrypt_block v0 v1 key1 = encrypt_block v0 v1 key2 ∧
    decrypt_block v0 v1 key1 = decrypt_block v0 v1 key2 := by
  have he : ∀ r, encRound key1 r = encRound key2 r := by
    intro r
    unfold encRound
    simp only [hA, hB]
  have hd : ∀ r, decRound key1 r = decRound key2 r := by
    intro r
    unfold decRound
    simp only [hA, hB]
  unfold encrypt_block decrypt_block
  simp only [encLoop_congr key1 key2 he, decLoop_congr key1 key2 hd, and_self]

theorem ctor_congr (signedChar : Bool) (N : Nat) (key1 key2 : Key) (str : List Nat)
    (h : ∀ v0 v1, encrypt_block v0 v1 key1 = encrypt_block v0 v1 key2) :
    encrypted_string.ctor signedChar N key1 str = encrypted_string.ctor signedChar N key2 str := by
  have hs : encrypted_string.ctorStep signedChar N key1 str
      = encrypted_string.ctorStep signedChar N key2 str := by
    funext e i
    unfold encrypted_string.ctorStep
    simp only [h]
  unfold encrypted_string.ctor
  rw [hs]

theorem key_eq (S1 S2 S3 S4 : Nat) (h1 : S1 < 2 ^ 32) (h2 : S2 < 2 ^ 32) (h3 : S3 < 2 ^ 32)
    (h4 : S4 < 2 ^ 32) : encrypted_string.key S1 S2 S3 S4 = ⟨S3, S1, S4, S2⟩ := by
  unfold encrypted_string.key generate U32
  simp only [List.getD_cons_succ, List.getD_cons_zero]
  rw [Nat.mod_eq_of_lt h1, Nat.mod_eq_of_lt h2, Nat.mod_eq_of_lt h3, Nat.mod_eq_of_lt h4]

/-- C17. Equivalent keys: for every key of 32-bit words and every block, flipping the most
significant bit of both `key[0]` and `key[1]`, or of both `key[2]` and `key[3]`, leaves
`encrypt_block` and `decrypt_block` unchanged; and for 32-bit seeds, flipping that bit of
`S1` and `S3`, or of `S2` and `S4`, gives a different seed tuple whose container holds the
same blocks for every text. -/
theorem C17_equivalent_keys (k0 k1 k2 k3 v0 v1 : Nat) (signedChar : Bool) (N : Nat)
    (str : List Nat) (S1 S2 S3 S4 : Nat)
    (hk0 : k0 < 2 ^ 32) (hk1 : k1 < 2 ^ 32) (hk2 : k2 < 2 ^ 32) (hk3 : k3 < 2 ^ 32)
    (hS1 : S1 < 2 ^ 32) (hS2 : S2 < 2 ^ 32) (hS3 : S3 < 2 ^ 32) (hS4 : S4 < 2 ^ 32) :
    (encrypt_block v0 v1 ⟨flipMsb k0, flipMsb k1, k2, k3⟩ = encrypt_block v0 v1 ⟨k0, k1, k2, k3⟩ ∧
      decrypt_block v0 v1 ⟨flipMsb k0, flipMsb k1, k2, k3⟩
        = decrypt_block v0 v1 ⟨k0, k1, k2, k3⟩) ∧
    (encrypt_block v0 v1 ⟨k0, k1, flipMsb k2, flipMsb k3⟩ = encrypt_block v0 v1 ⟨k0, k1, k2, k3⟩ ∧
      decrypt_block v0 v1 ⟨k0, k1, flipMsb k2, flipMsb k3⟩
        = decrypt_block v0 v1 ⟨k0, k1, k2, k3⟩) ∧
    (flipMsb S1 ≠ S1 ∧ flipMsb S3 ≠ S3 ∧
      encrypted_string.ctor signedChar N (encrypted_string.key (flipMsb S1) S2 (flipMsb S3) S4)
          str
        = encrypted_string.ctor signedChar N (encrypted_string.key S1 S2 S3 S4) str) ∧
    (flipMsb S2 ≠ S2 ∧ flipMsb S4 ≠ S4 ∧
      encrypted_string.ctor signedChar N (encrypted_string.key S1 (flipMsb S2) S3 (flipMsb S4))
          str
        = encrypted_string.ctor signedChar N (encrypted_string.key S1 S2 S3 S4) str) := by
  refine ⟨?_, ?_, ⟨flipMsb_ne S1 hS1, flipMsb_ne S3 hS3, ?_⟩,
    ⟨flipMsb_ne S2 hS2, flipMsb_ne S4 hS4, ?_⟩⟩
  · exact cipher_congr ⟨flipMsb k0, flipMsb k1, k2, k3⟩ ⟨k0, k1, k2, k3⟩
      (fun v sum => mix_flip v sum k0 k1 hk0 hk1) (fun _ _ => rfl) v0 v1
  · exact cipher_congr ⟨k0, k1, flipMsb k2, flipMsb k3⟩ ⟨k0, k1, k2, k3⟩
      (fun _ _ => rfl) (fun v sum => mix_flip v sum k2 k3 hk2 hk3) v0 v1
  · rw [key_eq _ _ _ _ (flipMsb_lt S1 hS1) hS2 (flipMsb_lt S3 hS3) hS4,
      key_eq _ _ _ _ hS1 hS2 hS3 hS4]
    exact ctor_congr signedChar N _ _ str (fun w0 w1 =>
      (cipher_congr ⟨flipMsb S3, flipMsb S1, S4, S2⟩ ⟨S3, S1, S4, S2⟩
        (fun v sum => mix_flip v sum S3 S1 hS3 hS1) (fun _ _ => rfl) w0 w1).1)
  · rw [key_eq _ _ _ _ hS1 (flipMsb_lt S2 hS2) hS3 (flipMsb_lt S4 hS4),
      key_eq _ _ _ _ hS1 hS2 hS3 hS4]
    exact ctor_congr signedChar N _ _ str (fun w0 w1 =>
      (cipher_congr ⟨S3, S1, flipMsb S4, flipMsb S2⟩ ⟨S3, S1, S4, S2⟩
        (fun _ _ => rfl) (fun v sum => mix_flip v sum S4 S2 hS4 hS2) w0 w1).1)

/-- Witness for C17 at key `(3, 4, 5, 6)`, block `(1, 2)`, the literal `"HELLO"` and seed
`(1, 2, 3, 4)`. -/
theorem C17_equivalent_keys_witness :
    ((3 < 2 ^ 32 ∧ 4 < 2 ^ 32 ∧ 5 < 2 ^ 32 ∧ 6 < 2 ^ 32) ∧
      (1 < 2 ^ 32 ∧ 2 < 2 ^ 32 ∧ 3 < 2 ^ 32 ∧ 4 < 2 ^ 32)) ∧
    ((encrypt_block 1 2 ⟨flipMsb 3, flipMsb 4, 5, 6⟩ = encrypt_block 1 2 ⟨3, 4, 5, 6⟩ ∧
      decrypt_block 1 2 ⟨flipMsb 3, flipMsb 4, 5, 6⟩ = decrypt_block 1 2 ⟨3, 4, 5, 6⟩) ∧
    (encrypt_block 1 2 ⟨3, 4, flipMsb 5, flipMsb 6⟩ = encrypt_block 1 2 ⟨3, 4, 5, 6⟩ ∧
      decrypt_block 1 2 ⟨3, 4, flipMsb 5, flipMsb 6⟩ = decrypt_block 1 2 ⟨3, 4, 5, 6⟩) ∧
    (flipMsb 1 ≠ 1 ∧ flipMsb 3 ≠ 3 ∧
      encrypted_string.ctor true 6 (encrypted_string.key (flipMsb 1) 2 (flipMsb 3) 4) helloText
        = encrypted_string.ctor true 6 (encrypted_string.key 1 2 3 4) helloText) ∧
    (flipMsb 2 ≠ 2 ∧ flipMsb 4 ≠ 4 ∧
      encrypted_string.ctor true 6 (encrypted_string.key 1 (flipMsb 2) 3 (flipMsb 4)) helloText
        = encrypted_string.ctor true 6 (encrypted_string.key 1 2 3 4) helloText)) :=
  ⟨by norm_num, C17_equivalent_keys 3 4 5 6 1 2 true 6 helloText 1 2 3 4 (by norm_num)
    (by norm_num) (by norm_num) (by norm_num) (by norm_num) (by norm_num) (by norm_num)
    (by norm_num)⟩

/-! ## Encryption as a permutation of blocks -/

theorem pack64_lt (v0 v1 : Nat) (h0 : v0 < U32) (h1 : v1 < U32) : pack64 v0 v1 < 2 ^ 64 := by
  rw [pack64_eq v0 v1 h0 h1]
  unfold U32 at *
  omega

theorem high32_lt (block : Nat) : high32 block < U32 :=
  Nat.mod_lt _ (by unfold U32; norm_num)

theorem low32_lt (block : Nat) : low32 block < U32 :=
  Nat.mod_lt _ (by unfold U32; norm_num)

/-- A 64-bit block is the packing of its two halves. -/
theorem pack64_high32_low32 (block : Nat) (h : block < 2 ^ 64) :
    pack64 (high32 block) (low32 block) = block := by
  rw [pack64_eq _ _ (high32_lt block) (low32_lt block)]
  unfold high32 low32
  have hand := Nat.and_pow_two_sub_one_eq_mod block 32
  norm_num at hand
  rw [Nat.shiftRight_eq_div_pow]
  norm_num
  rw [hand]
  unfold U32
  omega

theorem pack64_inj (v0 v1 w0 w1 : Nat) (hv0 : v0 < U32) (hv1 : v1 < U32) (hw0 : w0 < U32)
    (hw1 : w1 < U32) (h : pack64 v0 v1 = pack64 w0 w1) : v0 = w0 ∧ v1 = w1 := by
  rw [pack64_eq v0 v1 hv0 hv1, pack64_eq w0 w1 hw0 hw1] at h
  unfold U32 at *
  omega

/-- Encrypting the two halves of a decrypted block gives back the packed cipher words. -/
theorem encrypt_decrypt_block (key : Key) (v0 v1 : Nat) (h0 : v0 < U32) (h1 : v1 < U32) :
    encrypt_block (high32 (decrypt_block v0 v1 key)) (low32 (decrypt_block v0 v1 key)) key
      = pack64 v0 v1 := by
  have hs0 : (DELTA * ROUNDS) % U32 < U32 := Nat.mod_lt _ (by unfold U32; norm_num)
  have hr : Regs.InRange ⟨v0, v1, (DELTA * ROUNDS) % U32⟩ := ⟨h0, h1, hs0⟩
  have hb := decLoop_inRange key ROUNDS _ hr
  have hs := decLoop_sum key ROUNDS ⟨v0, v1, (DELTA * ROUNDS) % U32⟩ hs0
  have hzero : (decLoop key ROUNDS ⟨v0, v1, (DELTA * ROUNDS) % U32⟩).sum = 0 := by
    have hlt := hb.2.2
    simp only at hs
    unfold DELTA ROUNDS U32 at hs hlt
    unfold DELTA ROUNDS U32
    omega
  have hregs : (⟨(decLoop key ROUNDS ⟨v0, v1, (DELTA * ROUNDS) % U32⟩).v0,
      (decLoop key ROUNDS ⟨v0, v1, (DELTA * ROUNDS) % U32⟩).v1, 0⟩ : Regs)
      = decLoop key ROUNDS ⟨v0, v1, (DELTA * ROUNDS) % U32⟩ := by
    rw [← hzero]
  unfold encrypt_block decrypt_block
  simp only
  rw [high32_pack64 _ _ hb.1 hb.2.1, low32_pack64 _ _ hb.1 hb.2.1, hregs,
    encLoop_decLoop key ROUNDS _ hr]

theorem encrypt_block_lt (key : Key) (v0 v1 : Nat) (h0 : v0 < U32) (h1 : v1 < U32) :
    encrypt_block v0 v1 key < 2 ^ 64 := by
  have hb := encLoop_inRange key ROUNDS ⟨v0, v1, 0⟩ ⟨h0, h1, by unfold U32; norm_num⟩
  unfold encrypt_block
  exact pack64_lt _ _ hb.1 hb.2.1

/-- C18. Encryption is a permutation of 64-bit blocks: for every key and 32-bit words,
encrypting the halves of `decrypt_block v0 v1 key` returns `(v0 << 32) | v1`; two pairs
of words encrypt to the same block only when they are the same pair; the result is a
64-bit value; and every 64-bit block is the encryption of some pair of 32-bit words. -/
theorem C18_encrypt_permutation (key : Key) (v0 v1 w0 w1 block : Nat) (hv0 : v0 < 2 ^ 32)
    (hv1 : v1 < 2 ^ 32) (hw0 : w0 < 2 ^ 32) (hw1 : w1 < 2 ^ 32) (hblock : block < 2 ^ 64) :
    encrypt_block (high32 (decrypt_block v0 v1 key)) (low32 (decrypt_block v0 v1 key)) key
      = pack64 v0 v1 ∧
    (encrypt_block v0 v1 key = encrypt_block w0 w1 key ↔ (v0 = w0 ∧ v1 = w1)) ∧
    encrypt_block v0 v1 key < 2 ^ 64 ∧
    (∃ u0 u1, u0 < 2 ^ 32 ∧ u1 < 2 ^ 32 ∧ encrypt_block u0 u1 key = block) := by
  refine ⟨encrypt_decrypt_block key v0 v1 hv0 hv1, ⟨fun h => ?_, fun h => ?_⟩,
    encrypt_block_lt key v0 v1 hv0 hv1, ?_⟩
  · have hv := decrypt_encrypt_block key v0 v1 hv0 hv1
    have hw := decrypt_encrypt_block key w0 w1 hw0 hw1
    rw [h, hw] at hv
    exact (pack64_inj w0 w1 v0 v1 hw0 hw1 hv0 hv1 hv).elim (fun a b => ⟨a.symm, b.symm⟩)
  · rw [h.1, h.2]
  · refine ⟨high32 (decrypt_block (high32 block) (low32 block) key),
      low32 (decrypt_block (high32 block) (low32 block) key), high32_lt _, low32_lt _, ?_⟩
    rw [encrypt_decrypt_block key _ _ (high32_lt block) (low32_lt block),
      pack64_high32_low32 block hblock]

/-- Witness for C18 at key `(3, 4, 5, 6)`, the pairs `(1, 2)` and `(7, 8)` and the block
`12345`. -/
theorem C18_encrypt_permutation_witness :
    (1 < 2 ^ 32 ∧ 2 < 2 ^ 32 ∧ 7 < 2 ^ 32 ∧ 8 < 2 ^ 32 ∧ 12345 < 2 ^ 64) ∧
    (encrypt_block (high32 (decrypt_block 1 2 ⟨3, 4, 5, 6⟩))
        (low32 (decrypt_block 1 2 ⟨3, 4, 5, 6⟩)) ⟨3, 4, 5, 6⟩ = pack64 1 2 ∧
    (encrypt_block 1 2 ⟨3, 4, 5, 6⟩ = encrypt_block 7 8 ⟨3, 4, 5, 6⟩ ↔ (1 = 7 ∧ 2 = 8)) ∧
    encrypt_block 1 2 ⟨3, 4, 5, 6⟩ < 2 ^ 64 ∧
    (∃ u0 u1, u0 < 2 ^ 32 ∧ u1 < 2 ^ 32 ∧ encrypt_block u0 u1 ⟨3, 4, 5, 6⟩ = 12345)) :=
  ⟨by norm_num, C18_encrypt_permutation ⟨3, 4, 5, 6⟩ 1 2 7 8 12345 (by norm_num) (by norm_num)
    (by norm_num) (by norm_num) (by norm_num)⟩

/-! ## Which positions `decrypt` stores to -/

theorem foldl_fst {α β ι : Type} (g : α × β → ι → α × β) (f : α → ι → α)
    (h : ∀ s i, (g s i).1 = f s.1 i) (is : List ι) (s : α × β) :
    (is.foldl g s).1 = is.foldl f s.1 := by
  induction is generalizing s with
  | nil => rfl
  | cons a is ih => rw [List.foldl_cons, List.foldl_cons, ih, h]

theorem foldl_invariant {σ ι : Type} (g : σ → ι → σ) (P : σ → Prop)
    (h : ∀ s i, P s → P (g s i)) (is : List ι) (s : σ) (hs : P s) : P (is.foldl g s) := by
  induction is generalizing s with
  | nil => exact hs
  | cons a is ih => exact ih (g s a) (h s a hs)

theorem writeWordLog_fst (N v base : Nat) (s : List Nat × List Nat) :
    (writeWordLog N v base s).1 = writeWord N v base s.1 := by
  unfold writeWordLog writeWord
  apply foldl_fst
  intro s j
  show (if base + j < N - 1 then
      (s.1.set (base + j) ((v >>> (j * 8)) &&& 0xFF), s.2 ++ [base + j]) else s).1
    = if base + j < N - 1 then s.1.set (base + j) ((v >>> (j * 8)) &&& 0xFF) else s.1
  split_ifs <;> rfl

theorem decStepLog_fst (N : Nat) (key : Key) (e : List Nat) (s : List Nat × List Nat)
    (i : Nat) :
    (encrypted_string.decStepLog N key e s i).1 = encrypted_string.decStep N key e s.1 i := by
  unfold encrypted_string.decStepLog encrypted_string.decStep
  simp only [writeWordLog_fst]

/-- The buffer computed with the log is the buffer that `decrypt` computes. -/
theorem decryptLog_fst (N : Nat) (key : Key) (e d : List Nat) :
    (encrypted_string.decryptLog N key e d).1 = encrypted_string.decrypt N key e d := by
  unfold encrypted_string.decryptLog encrypted_string.decrypt
  show ((List.range (blockCount N)).foldl (encrypted_string.decStepLog N key e) (d, [])).1.set
    (N - 1) 0 = _
  rw [foldl_fst _ _ (decStepLog_fst N key e)]

theorem getD_set_ne (l : List Nat) (q p v : Nat) (h : q ≠ p) :
    (l.set q v).getD p 0 = l.getD p 0 := by
  simp only [List.getD_eq_getElem?_getD, List.getElem?_set_ne h]

theorem writeWordLog_untouched (N v base : Nat) (d : List Nat) (s : List Nat × List Nat)
    (hs : Untouched d s) : Untouched d (writeWordLog N v base s) := by
  unfold writeWordLog
  apply foldl_invariant _ (Untouched d) _ _ _ hs
  intro s j hs
  show Untouched d (if base + j < N - 1 then
    (s.1.set (base + j) ((v >>> (j * 8)) &&& 0xFF), s.2 ++ [base + j]) else s)
  split_ifs
  · intro p hp
    simp only [List.mem_append, List.mem_singleton, not_or] at hp
    show (s.1.set (base + j) ((v >>> (j * 8)) &&& 0xFF)).getD p 0 = d.getD p 0
    rw [getD_set_ne _ _ _ _ (fun h => hp.2 h.symm)]
    exact hs p hp.1
  · exact hs

/-- Every position that the log of a `decrypt` call does not contain keeps the byte it
held before the call. -/
theorem decrypt_frame (N : Nat) (key : Key) (e d : List Nat) (p : Nat)
    (hp : p ∉ (encrypted_string.decryptLog N key e d).2) :
    (encrypted_string.decrypt N key e d).getD p 0 = d.getD p 0 := by
  have hloop : Untouched d ((List.range (blockCount N)).foldl
      (encrypted_string.decStepLog N key e) (d, [])) := by
    apply foldl_invariant _ (Untouched d)
    · intro s i hs
      unfold encrypted_string.decStepLog
      exact writeWordLog_untouched _ _ _ d _ (writeWordLog_untouched _ _ _ d s hs)
    · intro p _
      rfl
  rw [← decryptLog_fst]
  unfold encrypted_string.decryptLog at hp ⊢
  simp only [List.mem_append, List.mem_singleton, not_or] at hp
  show (((List.range (blockCount N)).foldl (encrypted_string.decStepLog N key e)
    (d, [])).1.set (N - 1) 0).getD p 0 = d.getD p 0
  rw [getD_set_ne _ _ _ _ (fun h => hp.2 h.symm)]
  exact hloop p hp.1

/-- A `decrypt` call that follows an earlier `decrypt` call on the same buffer, of any
container of the same length, leaves what it leaves without the earlier call. -/
theorem decrypt_decrypt (N : Nat) (key key2 : Key) (e e2 d : List Nat) (hd : d.length = N) :
    encrypted_string.decrypt N key e (encrypted_string.decrypt N key2 e2 d)
      = encrypted_string.decrypt N key e d := by
  have hd2 : (encrypted_string.decrypt N key2 e2 d).length = N := by
    rw [decrypt_length, hd]
  apply list_eq_of_getD
  · rw [decrypt_length, decrypt_length, decrypt_length]
  · intro pos hpos
    rw [decrypt_length, hd2] at hpos
    have h1 := decrypt_getD N key e (encrypted_string.decrypt N key2 e2 d) pos hd2 hpos
    have h2 := decrypt_getD N key e d pos hd hpos
    have h3 := decrypt_getD N key2 e2 d pos hd hpos
    by_cases hlast : pos = N - 1
    · rw [List.getD_eq_getElem?_getD, List.getD_eq_getElem?_getD, h1.1 hlast, h2.1 hlast]
    · have hlt : pos < N - 1 := by omega
      by_cases hex : ∃ i ∈ List.range (blockCount N), scramble (blockCount N) i = pos / 8
      · rw [h1.2.1 hlt hex, h2.2.1 hlt hex]
      · rw [h1.2.2 hlt hex, h2.2.2 hlt hex, h3.2.2 hlt hex]

/-- C8. Buffer fully overwritten, evaluated at the first `decrypt` call (zero-initialised
buffer) of the container built from `"ABCDEFGHIJKLMNOPQRSTUVWXYZabcdef"` (`N = 33`) with
seed `(1, 2, 3, 4)`: the call stores to positions 0 .. 7 five times and to position 32,
and to no other position, so positions 8 .. 31 are not written during the call and hold
the zeros the buffer held before it. -/
theorem C8_positions_not_written_at_N33 :
    IsLiteral 33 text33 ∧
    (encrypted_string.decryptLog 33 (encrypted_string.key 1 2 3 4)
        (encrypted_string.ctor true 33 (encrypted_string.key 1 2 3 4) text33)
        (freshBuffer 33)).2
      = [0, 1, 2, 3, 4, 5, 6, 7] ++ [0, 1, 2, 3, 4, 5, 6, 7] ++ [0, 1, 2, 3, 4, 5, 6, 7]
        ++ [0, 1, 2, 3, 4, 5, 6, 7] ++ [0, 1, 2, 3, 4, 5, 6, 7] ++ [32] ∧
    (List.range 33).filter (fun p => decide (p ∉
        (encrypted_string.decryptLog 33 (encrypted_string.key 1 2 3 4)
          (encrypted_string.ctor true 33 (encrypted_string.key 1 2 3 4) text33)
          (freshBuffer 33)).2))
      = (List.range 24).map (fun p => 8 + p) ∧
    (encrypted_string.decryptLog 33 (encrypted_string.key 1 2 3 4)
        (encrypted_string.ctor true 33 (encrypted_string.key 1 2 3 4) text33)
        (freshBuffer 33)).1
      = encrypted_string.decrypt 33 (encrypted_string.key 1 2 3 4)
        (encrypted_string.ctor true 33 (encrypted_string.key 1 2 3 4) text33)
        (freshBuffer 33) ∧
    encrypted_string.decrypt 33 (encrypted_string.key 1 2 3 4)
        (encrypted_string.ctor true 33 (encrypted_string.key 1 2 3 4) text33)
        (freshBuffer 33)
      = [65, 66, 67, 68, 69, 70, 71, 72] ++ List.replicate 24 0 ++ [0] := by
  decide

end tea
